import Mathlib

/-
Verification of the numeric-literal evaluation engine (MathLib) of the
cppcheck static-analysis tool, shallowly embedded from src/lib/mathlib.cpp.

Modelling conventions:
* A C++ `std::string` is a `List Char`.  Indexing `s[n]` at `n = s.size()`
  yields the terminating NUL character, which the scanners rely on; `charAt`
  reproduces this by returning `nullChar` out of range.
* Character classification (`isspace`, `isdigit`, `isxdigit`, `tolower`)
  uses the fixed C-locale ASCII semantics.
* `MathLib::bigint` (`long long`) is modelled as unbounded `Int`; overflow
  of the 64-bit width is undefined/unspecified behaviour in the source and
  is outside the model.
* C++ `double` is modelled as an exact rational, represented by the pair
  structure `Q` (numerator, denominator) so that every operation is a
  structurally recursive computation; IEEE-754 rounding is outside the
  model.  `qVal` interprets a `Q` in `ℚ`.
* `std::istringstream` extraction and `std::atof` are modelled by
  `streamInt`, `istreamDouble` and `atofQ` following the C11/C++11
  strtol/strtod grammars (maximal munch, value 0 stored on failure).
* `std::ostringstream` insertion (the canonical formatter) is modelled by
  `toStringBigint` for integers and by `toStringDouble` for doubles;
  the latter implements the default `%g`-style rendering with 6
  significant digits (round to nearest, ties to even).
-/

namespace MathLib

/-- The NUL character a C string index read yields at the end of the data. -/
def nullChar : Char := Char.ofNat 0

/-- `s[n]` on a `std::string`: the character at `n`, or NUL past the end. -/
def charAt (s : List Char) (n : Nat) : Char := s.getD n nullChar

/-- C-locale `std::isspace`. -/
def isSpaceC (c : Char) : Bool :=
  c == ' ' || c == '\t' || c == '\n' || c == Char.ofNat 11 || c == Char.ofNat 12 || c == '\r'

/-- C-locale `std::isdigit`. -/
def isDigitC (c : Char) : Bool := '0' ≤ c && c ≤ '9'

/-- C-locale `std::isxdigit`. -/
def isXDigitC (c : Char) : Bool :=
  isDigitC c || ('a' ≤ c && c ≤ 'f') || ('A' ≤ c && c ≤ 'F')

/-- C-locale `std::tolower`. -/
def toLowerC (c : Char) : Char :=
  if 'A' ≤ c && c ≤ 'Z' then Char.ofNat (c.toNat + 32) else c

/-- The characters accepted by the integer-suffix loops (`u`/`l`, any case). -/
def isSuffixUL (c : Char) : Bool := toLowerC c == 'u' || toLowerC c == 'l'

/-- `MathLib::isOctalDigit`. -/
def isOctalDigit (c : Char) : Bool :=
  c == '0' || c == '1' || c == '2' || c == '3' || c == '4' || c == '5' || c == '6' || c == '7'

/-- Does `sub` occur at the head of `l`? (one step of `std::string::find`). -/
def headMatches : List Char → List Char → Bool
  | _, [] => true
  | [], _ :: _ => false
  | a :: s, b :: t => a == b && headMatches s t

/-- `s.find(sub) != std::string::npos`: `sub` occurs somewhere in `s`. -/
def containsL : List Char → List Char → Bool
  | s, sub =>
    if headMatches s sub then true
    else
      match s with
      | [] => false
      | _ :: t => containsL t sub

/-- One character of `s.find_first_of(set)`: does any character of `set` occur? -/
def containsAny (s : List Char) (set : List Char) : Bool :=
  s.any (fun c => set.any (fun d => c == d))

/-- Fuel-driven core of the index-advancing scan loops `while (p(s[n])) ++n;`. -/
def skipWhileF (p : Char → Bool) (s : List Char) : Nat → Nat → Nat
  | 0, n => n
  | fuel + 1, n => if p (charAt s n) then skipWhileF p s fuel (n + 1) else n

/-- `while (p(s[n])) ++n;` starting at index `n` (the predicates used all
reject NUL, so the loop never passes the end of the string). -/
def skipW (p : Char → Bool) (s : List Char) (n : Nat) : Nat :=
  skipWhileF p s (s.length + 1 - n) n

/-- `MathLib::isFloat`: contains a `.`, or contains `E-` or `e-`. -/
def isFloat (s : List Char) : Bool :=
  containsL s ['.'] || containsL s ['E', '-'] || containsL s ['e', '-']

/-- `MathLib::isNegative`: skip whitespace, test for a `-`. -/
def isNegative (s : List Char) : Bool :=
  charAt s (skipW isSpaceC s 0) == '-'

/-- The `sign` flag of `isOct`/`isHex`: `str[0]=='-' || str[0]=='+'`. -/
def signAt0 (s : List Char) : Bool :=
  charAt s 0 == '-' || charAt s 0 == '+'

/-- `MathLib::isOct`. -/
def isOct (s : List Char) : Bool :=
  let sign := signAt0 s
  charAt s (if sign then 1 else 0) == '0'
    && (s.length == 1 || isOctalDigit (charAt s (if sign then 2 else 1)))
    && !(isFloat s)

/-- `MathLib::isHex`: `str.compare(sign?1:0, 2, "0x") == 0` (or `"0X"`). -/
def isHex (s : List Char) : Bool :=
  let pos := if signAt0 s then 1 else 0
  (s.drop pos).take 2 == ['0', 'x'] || (s.drop pos).take 2 == ['0', 'X']

/-- The `Representation` enumeration inside `MathLib::isInt`. -/
inductive Rep where
  | eScientific
  | eOctal
  | eHex
  | eDefault
deriving DecidableEq

/-- `MathLib::isInt`: the hand-rolled scanner, translated state by state. -/
def isInt (s : List Char) : Bool :=
  if containsL s ['.'] then false
  else if containsL s ['E', '-'] || containsL s ['e', '-'] then false
  else
    let mode : Rep :=
      if containsL s ['E'] then .eScientific
      else if isHex s then .eHex
      else if isOct s then .eOctal
      else .eDefault
    let n := skipW isSpaceC s 0
    let n := if charAt s n == '-' || charAt s n == '+' then n + 1 else n
    match mode with
    | .eScientific =>
      let n := skipW isDigitC s n
      if toLowerC (charAt s n) == 'e' then
        let n := n + 1
        let n := if charAt s n == '+' then n + 1 else n
        if charAt s n == '-' then false
        else
          let n := skipW isDigitC s n
          decide (s.length ≤ skipW isSpaceC s n)
      else
        decide (s.length ≤ skipW isSpaceC s n)
    | .eHex =>
      let n := n + 1 + 1
      let n := skipW isXDigitC s n
      let n := skipW isSuffixUL s n
      decide (s.length ≤ skipW isSpaceC s n)
    | .eOctal =>
      let n := n + 1
      let n := skipW isOctalDigit s n
      let n := skipW isSuffixUL s n
      decide (s.length ≤ skipW isSpaceC s n)
    | .eDefault =>
      let m := skipW isDigitC s n
      let m2 := skipW isSuffixUL s m
      if m == n then false
      else decide (s.length ≤ skipW isSpaceC s m2)

/-- Value of a single (hexadecimal) digit character, as used by the
strtol/strtod-style conversions. -/
def digitVal (c : Char) : Nat :=
  if isDigitC c then c.toNat - 48
  else if 'a' ≤ c && c ≤ 'f' then c.toNat - 87
  else if 'A' ≤ c && c ≤ 'F' then c.toNat - 55
  else 0

/-- Digit test in a given radix (8, 10 or 16). -/
def isBaseDigit (base : Nat) (c : Char) : Bool :=
  if base == 16 then isXDigitC c
  else if base == 8 then isOctalDigit c
  else isDigitC c

/-- Value of a digit string in a given radix. -/
def digitsVal (base : Nat) (l : List Char) : Nat :=
  l.foldl (fun a c => a * base + digitVal c) 0

/-- An optional leading sign, as consumed by the stream extractors. -/
def readSign : List Char → Bool × List Char
  | [] => (false, [])
  | c :: r => if c == '-' then (true, r) else if c == '+' then (false, r) else (false, c :: r)

/-- The optional `0x`/`0X` marker consumed by hexadecimal stream extraction. -/
def dropHexMark : List Char → List Char
  | '0' :: 'x' :: r => r
  | '0' :: 'X' :: r => r
  | l => l

/-- `std::istringstream >> (std::hex/std::oct/std::dec) >> ret` on a
`long long`: skip whitespace, optional sign, optional `0x` marker in base
16, then a maximal run of digits of the radix; an empty run stores 0. -/
def streamInt (base : Nat) (s : List Char) : Int :=
  let l := s.dropWhile isSpaceC
  let p := readSign l
  let l := if base == 16 then dropHexMark p.2 else p.2
  let ds := l.takeWhile (isBaseDigit base)
  if p.1 then -(digitsVal base ds : Int) else (digitsVal base ds : Int)

/-- Exact-rational stand-in for the C++ `double`: a numerator/denominator
pair, combined without normalisation so that every operation is a plain
structural computation.  IEEE-754 rounding is outside the model. -/
structure Q where
  num : Int
  den : Nat
deriving DecidableEq

/-- Interpretation of a `Q` in `ℚ` (meaningful when `den ≠ 0`). -/
def qVal (a : Q) : ℚ := (a.num : ℚ) / (a.den : ℚ)

/-- Exact multiplication of a `Q` by an integer power of ten. -/
def qMulPow10 (a : Q) (e : Int) : Q :=
  if 0 ≤ e then ⟨a.num * (10 : Int) ^ e.toNat, a.den⟩
  else ⟨a.num, a.den * 10 ^ (-e).toNat⟩

/-- The fields recognised by one strtod-style scan of a decimal floating
literal: sign, integer digits, fraction digits, whether an exponent marker
was seen, exponent sign and exponent digits. -/
structure FloatScan where
  neg : Bool
  ip : List Char
  fp : List Char
  expMark : Bool
  expNeg : Bool
  ed : List Char

/-- The fraction part: a `.` followed by a maximal digit run. -/
def scanFrac (l : List Char) : List Char × List Char :=
  match l with
  | '.' :: r => (r.takeWhile isDigitC, r.dropWhile isDigitC)
  | _ => ([], l)

/-- The exponent part: `e`/`E`, an optional sign, a maximal digit run. -/
def scanExp (l : List Char) : Bool × Bool × List Char :=
  match l with
  | 'e' :: r => let p := readSign r; (true, p.1, p.2.takeWhile isDigitC)
  | 'E' :: r => let p := readSign r; (true, p.1, p.2.takeWhile isDigitC)
  | _ => (false, false, [])

/-- One left-to-right scan of a decimal floating literal (whitespace, sign,
integer digits, fraction, exponent), shared by the `atof` and the stream
extraction models. -/
def scanFloat (s : List Char) : FloatScan :=
  let l := s.dropWhile isSpaceC
  let p := readSign l
  let ip := p.2.takeWhile isDigitC
  let l1 := p.2.dropWhile isDigitC
  let fr := scanFrac l1
  let ex := scanExp fr.2
  ⟨p.1, ip, fr.1, ex.1, ex.2.1, ex.2.2⟩

/-- The signed mantissa denoted by a scan: `±(ip.fp)` over `10^|fp|`. -/
def floatScanMant (f : FloatScan) : Q :=
  ⟨(if f.neg then -1 else 1) * (digitsVal 10 (f.ip ++ f.fp) : Int), 10 ^ f.fp.length⟩

/-- The signed exponent denoted by a scan. -/
def floatScanExp (f : FloatScan) : Int :=
  if f.expNeg then -(digitsVal 10 f.ed : Int) else (digitsVal 10 f.ed : Int)

/-- `std::atof` (strtod semantics): no mantissa digits parse as 0; an
exponent marker not followed by digits is backed off and ignored. -/
def atofQ (s : List Char) : Q :=
  let f := scanFloat s
  if f.ip.isEmpty && f.fp.isEmpty then ⟨0, 1⟩
  else if f.ed.isEmpty then floatScanMant f
  else qMulPow10 (floatScanMant f) (floatScanExp f)

/-- `std::istringstream >> ret` on a `double`: as `atofQ`, except that an
exponent marker not followed by digits makes the whole extraction fail,
which (C++11) stores 0. -/
def istreamDouble (s : List Char) : Q :=
  let f := scanFloat s
  if f.ip.isEmpty && f.fp.isEmpty then ⟨0, 1⟩
  else if f.expMark && f.ed.isEmpty then ⟨0, 1⟩
  else if f.ed.isEmpty then floatScanMant f
  else qMulPow10 (floatScanMant f) (floatScanExp f)

/-- Floor of a `Q` (for `den ≠ 0`): Euclidean division of the numerator by
the (positive) denominator. -/
def floorQ (a : Q) : Int := a.num.ediv (a.den : Int)

/-- `static_cast<bigint>` of a double: truncation toward zero. -/
def truncQ (a : Q) : Int :=
  if a.num < 0 then -(floorQ ⟨-a.num, a.den⟩) else floorQ a

/-- `MathLib::toLongNumber`: hexadecimal, octal, scientific (via `atof`,
truncated) or decimal conversion, in that order. -/
def toLongNumber (s : List Char) : Int :=
  if isHex s then streamInt 16 s
  else if isOct s then streamInt 8 s
  else if containsAny s ['e', 'E'] then truncQ (atofQ s)
  else streamInt 10 s

/-- `MathLib::isNullValue`: the fixed list of textual zero spellings. -/
def isNullValue (s : List Char) : Bool :=
  s == ['-', '0'] || s == ['0'] || s == ['+', '0']
    || s == ['-', '0', '.', '0'] || s == ['0', '.', '0'] || s == ['+', '0', '.', '0']
    || s == ['-', '0', '.'] || s == ['+', '0', '.']
    || s == ['-', '0', 'E', '-', '0', '0'] || s == ['-', '0', 'E', '+', '0', '0']
    || s == ['+', '0', 'E', '+', '0', '0'] || s == ['+', '0', 'E', '-', '0', '0']
    || s == ['-', '0', 'e', '-', '0', '0'] || s == ['-', '0', 'e', '+', '0', '0']
    || s == ['+', '0', 'e', '+', '0', '0'] || s == ['+', '0', 'e', '-', '0', '0']
    || s == ['-', '0', 'E', '-', '0']

/-- `MathLib::toDoubleNumber`: hexadecimal promotes the integer value,
a null spelling short-cuts to 0.0, everything else is stream-parsed. -/
def toDoubleNumber (s : List Char) : Q :=
  if isHex s then ⟨toLongNumber s, 1⟩
  else if isNullValue s then ⟨0, 1⟩
  else istreamDouble s

/-- The character of a decimal digit. -/
def toDigitChar (d : Nat) : Char := Char.ofNat (48 + d)

/-- Fuel-driven base-10 digit rendering of a natural number. -/
def natDigitsF : Nat → Nat → List Char
  | 0, _ => []
  | fuel + 1, n => if n < 10 then [toDigitChar n] else natDigitsF fuel (n / 10) ++ [toDigitChar (n % 10)]

/-- Base-10 digit string of a natural number (no sign, no leading zeros). -/
def natDigits (n : Nat) : List Char := natDigitsF (n + 1) n

/-- `MathLib::toString<bigint>`: `std::ostringstream << (long long)`. -/
def toStringBigint (i : Int) : List Char :=
  if i < 0 then '-' :: natDigits i.natAbs else natDigits i.natAbs

/-- Exactly `k` base-10 digit characters of `m % 10^k`, zero-padded. -/
def digitsFixed : Nat → Nat → List Char
  | 0, _ => []
  | k + 1, m => digitsFixed k (m / 10) ++ [toDigitChar (m % 10)]

/-- Fuel-driven floor of log base 10. -/
def natLog10F : Nat → Nat → Nat
  | 0, _ => 0
  | fuel + 1, n => if n < 10 then 0 else natLog10F fuel (n / 10) + 1

/-- `natLog10 n` is the floor of log₁₀ `n` for `n ≥ 1`. -/
def natLog10 (n : Nat) : Nat := natLog10F n n

/-- Fuel-driven ceiling of log base 10. -/
def natClog10F : Nat → Nat → Nat
  | 0, _ => 0
  | fuel + 1, m => if m ≤ 1 then 0 else natClog10F fuel ((m + 9) / 10) + 1

/-- `natClog10 m` is the least `k` with `m ≤ 10^k`. -/
def natClog10 (m : Nat) : Nat := natClog10F m m

/-- Strict value comparison of two `Q` (for positive denominators). -/
def qLt (a b : Q) : Bool := a.num * (b.den : Int) < b.num * (a.den : Int)

/-- Value comparison of two `Q` (for positive denominators). -/
def qLe (a b : Q) : Bool := a.num * (b.den : Int) ≤ b.num * (a.den : Int)

/-- The decimal exponent of a positive value: the unique `e` with
`10^e ≤ a < 10^(e+1)`. -/
def decExp (a : Q) : Int :=
  if qLe ⟨1, 1⟩ a then (natLog10 (floorQ a).toNat : Int)
  else -(natClog10 ((a.den + a.num.toNat - 1) / a.num.toNat) : Int)

/-- `a - k` for an integer `k`, on the same denominator. -/
def qSubInt (a : Q) (k : Int) : Q := ⟨a.num - k * (a.den : Int), a.den⟩

/-- Round to the nearest integer, ties to even. -/
def rne (a : Q) : Int :=
  let f := floorQ a
  let r := qSubInt a f
  if qLt r ⟨1, 2⟩ then f
  else if qLt ⟨1, 2⟩ r then f + 1
  else if Int.emod f 2 == 0 then f else f + 1

/-- Remove trailing `0` characters. -/
def stripZeros (l : List Char) : List Char :=
  (l.reverse.dropWhile (fun c => c == '0')).reverse

/-- The exponent field of scientific notation: at least two digits. -/
def expDigits (n : Nat) : List Char :=
  if n < 10 then ['0', toDigitChar n] else natDigits n

/-- Rendering of `±m × 10^(e-5)` (for `10^5 ≤ m < 10^6`) in the default
`%g` style with 6 significant digits: scientific form iff `e < -4` or
`e ≥ 6`, trailing fraction zeros removed, exponent written `e±dd`. -/
def fmtParts (neg : Bool) (m : Nat) (e : Int) : List Char :=
  let D := digitsFixed 6 m
  let body :=
    if e < -4 || 6 ≤ e then
      let frac := stripZeros D.tail
      D.take 1 ++ (if frac.isEmpty then [] else '.' :: frac)
        ++ 'e' :: (if e < 0 then '-' else '+') :: expDigits e.natAbs
    else if 0 ≤ e then
      let frac := stripZeros (D.drop (e.toNat + 1))
      D.take (e.toNat + 1) ++ (if frac.isEmpty then [] else '.' :: frac)
    else
      '0' :: '.' :: (List.replicate (e.natAbs - 1) '0' ++ stripZeros D)
  if neg then '-' :: body else body

/-- Absolute value of a `Q`. -/
def qAbs (a : Q) : Q := ⟨(a.num.natAbs : Int), a.den⟩

/-- `MathLib::toString<double>`: `std::ostringstream << (double)`, the
default formatting with 6 significant digits. -/
def toStringDouble (a : Q) : List Char :=
  if a.num == 0 then ['0']
  else
    let p := qAbs a
    let e := decExp p
    let m0 := rne (qMulPow10 p (5 - e))
    let m := if m0 == 1000000 then 100000 else m0
    let e := if m0 == 1000000 then e + 1 else e
    fmtParts (a.num < 0) m.toNat e

/-- Addition of two `Q`. -/
def qAdd (a b : Q) : Q := ⟨a.num * b.den + b.num * a.den, a.den * b.den⟩

/-- Subtraction of two `Q`. -/
def qSub (a b : Q) : Q := ⟨a.num * b.den - b.num * a.den, a.den * b.den⟩

/-- Multiplication of two `Q`. -/
def qMul (a b : Q) : Q := ⟨a.num * b.num, a.den * b.den⟩

/-- Division of two `Q` (division by a zero value yields a zero
denominator, mirroring that float division by zero leaves the finite
range of the model). -/
def qDiv (a b : Q) : Q :=
  if b.num < 0 then ⟨-(a.num * b.den), a.den * b.num.natAbs⟩
  else ⟨a.num * (b.den : Int), a.den * b.num.natAbs⟩

/-- `MathLib::add`. -/
def add (f s : List Char) : List Char :=
  if isInt f && isInt s then toStringBigint (toLongNumber f + toLongNumber s)
  else toStringDouble (qAdd (toDoubleNumber f) (toDoubleNumber s))

/-- `MathLib::subtract`. -/
def subtract (f s : List Char) : List Char :=
  if isInt f && isInt s then toStringBigint (toLongNumber f - toLongNumber s)
  else toStringDouble (qSub (toDoubleNumber f) (toDoubleNumber s))

/-- `MathLib::divide`. -/
def divide (f s : List Char) : List Char :=
  if isInt f && isInt s then toStringBigint (Int.tdiv (toLongNumber f) (toLongNumber s))
  else toStringDouble (qDiv (toDoubleNumber f) (toDoubleNumber s))

/-- `MathLib::multiply`. -/
def multiply (f s : List Char) : List Char :=
  if isInt f && isInt s then toStringBigint (toLongNumber f * toLongNumber s)
  else toStringDouble (qMul (toDoubleNumber f) (toDoubleNumber s))

/-- The `InternalError` exception thrown by `MathLib::calculate`. -/
structure InternalError where
  tokenId : Nat
  message : List Char
deriving DecidableEq

/-- The apostrophe character, kept out of string literals. -/
def quoteChar : Char := Char.ofNat 39

/-- First half of the `InternalError` message of `MathLib::calculate`. -/
def calcMsgA : String := "Unexpected action "

/-- Second half of the `InternalError` message of `MathLib::calculate`. -/
def calcMsgB : String := " in MathLib::calculate(). Please report this to Cppcheck developers."

/-- The full `InternalError` message for an unexpected action character. -/
def calcMsg (action : Char) : List Char :=
  calcMsgA.toList ++ [quoteChar, action, quoteChar] ++ calcMsgB.toList

/-- `MathLib::calculate`: dispatch on the action character; any character
other than `+ - * /` throws `InternalError`, modelled as `Except.error`. -/
def calculate (f s : List Char) (action : Char) : Except InternalError (List Char) :=
  match action with
  | '+' => .ok (add f s)
  | '-' => .ok (subtract f s)
  | '*' => .ok (multiply f s)
  | '/' => .ok (divide f s)
  | a => .error ⟨0, calcMsg a⟩

/-- `MathLib::isEqual`: byte equality of the two canonically formatted
double conversions (not a direct floating comparison). -/
def isEqual (f s : List Char) : Bool :=
  toStringDouble (toDoubleNumber f) == toStringDouble (toDoubleNumber s)

/-- `MathLib::isNotEqual`. -/
def isNotEqual (f s : List Char) : Bool := !(isEqual f s)

/-- `MathLib::isGreater`: direct value comparison of the conversions. -/
def isGreater (f s : List Char) : Bool := qLt (toDoubleNumber s) (toDoubleNumber f)

/-- `MathLib::isGreaterEqual`. -/
def isGreaterEqual (f s : List Char) : Bool := qLe (toDoubleNumber s) (toDoubleNumber f)

/-- `MathLib::isLess`. -/
def isLess (f s : List Char) : Bool := qLt (toDoubleNumber f) (toDoubleNumber s)

/-- `MathLib::isLessEqual`. -/
def isLessEqual (f s : List Char) : Bool := qLe (toDoubleNumber f) (toDoubleNumber s)

/-- The exponent field of an assembled literal: `e`, a sign, digits. -/
def renderExpPart : Option (Bool × List Char) → List Char
  | none => []
  | some p => 'e' :: (if p.1 then '-' else '+') :: p.2

/-- The sign flag of an optional exponent field. -/
def exNeg : Option (Bool × List Char) → Bool
  | none => false
  | some p => p.1

/-- The digits of an optional exponent field. -/
def exDigits : Option (Bool × List Char) → List Char
  | none => []
  | some p => p.2

/-- The general shape of a decimal floating literal assembled by the
formatter: optional `-`, integer digits, optional `.` and fraction digits,
optional exponent (`e`, sign, digits); used to factor the round-trip
analysis of the parser over the formatter's output. -/
def render (neg : Bool) (ip fp : List Char) (ex : Option (Bool × List Char)) : List Char :=
  (if neg then ['-'] else []) ++ ip
    ++ (if fp.isEmpty then [] else '.' :: fp)
    ++ renderExpPart ex

/-- The tail of a rendered literal after the integer digits: the fraction
part then the exponent part. -/
def renderTail (fp : List Char) (ex : Option (Bool × List Char)) : List Char :=
  (if fp.isEmpty then [] else '.' :: fp) ++ renderExpPart ex

/-! Specification-side definitions, written from the wording of the
specification for comparison against the source embeddings above. -/

/-- Following the specification wording for `isInt`, the mode priority:
Scientific (contains uppercase `E`), else Hex, else Octal, else Default. -/
def specMode (s : List Char) : Rep :=
  if containsL s ['E'] then .eScientific
  else if isHex s then .eHex
  else if isOct s then .eOctal
  else .eDefault

/-- Following the specification wording: the Scientific grammar consumes
digits, an optional case-insensitive `e` with an optional `+` and exponent
digits, rejecting `-`. -/
def specSciTail (s : List Char) (n : Nat) : Option Nat :=
  let n := skipW isDigitC s n
  if toLowerC (charAt s n) == 'e' then
    let n := n + 1
    let n := if charAt s n == '+' then n + 1 else n
    if charAt s n == '-' then none
    else some (skipW isDigitC s n)
  else some n

/-- Following the specification wording: the Hex grammar consumes the
`0x` marker then hexadecimal digits. -/
def specHexTail (s : List Char) (n : Nat) : Option Nat :=
  if charAt s n == '0' && (charAt s (n + 1) == 'x' || charAt s (n + 1) == 'X') then
    some (skipW isXDigitC s (n + 1 + 1))
  else none

/-- Following the specification wording: the Octal grammar consumes the
leading `0` then octal digits. -/
def specOctTail (s : List Char) (n : Nat) : Option Nat :=
  if charAt s n == '0' then some (skipW isOctalDigit s (n + 1)) else none

/-- Following the specification wording: the Default grammar requires at
least one decimal digit. -/
def specDefaultTail (s : List Char) (n : Nat) : Option Nat :=
  let m := skipW isDigitC s n
  if m == n then none else some m

/-- `isInt` as the specification describes it: prechecks, mode priority,
whitespace, one optional sign, the mode grammar, a case-insensitive
`u`/`l` suffix run for non-scientific modes, trailing whitespace, and the
requirement that the scan reached the end of the token. -/
def isIntSpec (s : List Char) : Bool :=
  if containsL s ['.'] || (containsL s ['E', '-'] || containsL s ['e', '-']) then false
  else
    let mode := specMode s
    let n := skipW isSpaceC s 0
    let n := if charAt s n == '-' || charAt s n == '+' then n + 1 else n
    let t := match mode with
      | .eScientific => specSciTail s n
      | .eHex => specHexTail s n
      | .eOctal => specOctTail s n
      | .eDefault => specDefaultTail s n
    match t with
    | none => false
    | some m =>
      let m := if mode = .eScientific then m else skipW isSuffixUL s m
      decide (s.length ≤ skipW isSpaceC s m)

/-- The claim's reading of `isOct`: after an optional leading sign, the
token starts with `0` followed by an octal digit or end-of-token, and is
not classified floating. -/
def isOctClaim (s : List Char) : Bool :=
  let off := if signAt0 s then 1 else 0
  charAt s off == '0' && (s.length == off + 1 || isOctalDigit (charAt s (off + 1)))
    && !(isFloat s)

/-- The amended reading of `isOct`: the end-of-token case applies only to
the unsigned single-character token `0`, because the source compares the
whole length to 1. -/
def isOctAmended (s : List Char) : Bool :=
  let off := if signAt0 s then 1 else 0
  charAt s off == '0' && (s == ['0'] || isOctalDigit (charAt s (off + 1)))
    && !(isFloat s)

/-- The representation-selection policy of the specification, abstracted
over the integer-space and floating-space operation pair: both operands
integral computes in integer space and renders through the integer
formatter, anything else computes in floating space and renders through
the float formatter. -/
def combineSpec (iop : Int → Int → Int) (fop : Q → Q → Q) (f s : List Char) : List Char :=
  if isInt f && isInt s then toStringBigint (iop (toLongNumber f) (toLongNumber s))
  else toStringDouble (fop (toDoubleNumber f) (toDoubleNumber s))

/-- The enumerated null-value spellings of the specification: `-0`, `0`,
`+0`, `-0.0`, `0.0`, `+0.0`, `-0.`, `+0.`, the eight signed
upper/lower-case two-digit-exponent forms of `0E±00`/`0e±00`, and
`-0E-0`. -/
def nullSpellings : List (List Char) :=
  [['-', '0'], ['0'], ['+', '0'],
   ['-', '0', '.', '0'], ['0', '.', '0'], ['+', '0', '.', '0'],
   ['-', '0', '.'], ['+', '0', '.'],
   ['-', '0', 'E', '-', '0', '0'], ['-', '0', 'E', '+', '0', '0'],
   ['+', '0', 'E', '+', '0', '0'], ['+', '0', 'E', '-', '0', '0'],
   ['-', '0', 'e', '-', '0', '0'], ['-', '0', 'e', '+', '0', '0'],
   ['+', '0', 'e', '+', '0', '0'], ['+', '0', 'e', '-', '0', '0'],
   ['-', '0', 'E', '-', '0']]

/-! Basic facts about `charAt` and the scan loops. -/

theorem charAt_eq_headD (s : List Char) (n : Nat) : charAt s n = (s.drop n).headD nullChar := by
  induction s generalizing n with
  | nil => simp [charAt]
  | cons a t ih =>
    cases n with
    | zero => simp [charAt]
    | succ m => simpa [charAt] using ih m

theorem charAt_of_len_le {s : List Char} {n : Nat} (h : s.length ≤ n) : charAt s n = nullChar := by
  rw [charAt_eq_headD, List.drop_eq_nil_of_le h]
  rfl

theorem charAt_lt_len {s : List Char} {n : Nat} (h : n < s.length) :
    s.drop n = charAt s n :: s.drop (n + 1) := by
  rw [charAt_eq_headD, List.drop_eq_getElem_cons h]
  rfl

theorem dropWhile_eq_drop_takeWhile (p : Char → Bool) (l : List Char) :
    l.dropWhile p = l.drop (l.takeWhile p).length := by
  induction l with
  | nil => rfl
  | cons a t ih =>
    by_cases h : p a
    · simpa [List.dropWhile_cons, List.takeWhile_cons, h] using ih
    · simp [List.dropWhile_cons, List.takeWhile_cons, h]

theorem skipWhileF_spec {p : Char → Bool} (hp : p nullChar = false) (s : List Char) :
    ∀ fuel n, s.length ≤ n + fuel →
      skipWhileF p s fuel n = n + ((s.drop n).takeWhile p).length := by
  intro fuel
  induction fuel with
  | zero =>
    intro n h
    rw [List.drop_eq_nil_of_le (by omega)]
    simp [skipWhileF]
  | succ fuel ih =>
    intro n h
    by_cases hc : p (charAt s n) = true
    · have hn : n < s.length := by
        by_contra hge
        rw [charAt_of_len_le (by omega)] at hc
        rw [hp] at hc
        exact Bool.false_ne_true hc
      rw [skipWhileF, hc, ih (n + 1) (by omega), charAt_lt_len hn]
      simp [List.takeWhile_cons, hc]
      omega
    · have hc' : p (charAt s n) = false := by simpa using hc
      rw [skipWhileF, hc']
      rcases Nat.lt_or_ge n s.length with hn | hn
      · rw [charAt_lt_len hn]
        simp [List.takeWhile_cons, hc']
      · rw [List.drop_eq_nil_of_le hn]
        simp

theorem skipW_eq {p : Char → Bool} (hp : p nullChar = false) (s : List Char) (n : Nat) :
    skipW p s n = n + ((s.drop n).takeWhile p).length := by
  exact skipWhileF_spec hp s (s.length + 1 - n) n (by omega)

theorem skipW_of_head_false {p : Char → Bool} (hp : p nullChar = false) {s : List Char}
    {n : Nat} (h : p (charAt s n) = false) : skipW p s n = n := by
  rw [skipW_eq hp]
  rcases Nat.lt_or_ge n s.length with hn | hn
  · rw [charAt_lt_len hn]
    simp [List.takeWhile_cons, h]
  · rw [List.drop_eq_nil_of_le hn]
    simp

theorem drop_skipW {p : Char → Bool} (hp : p nullChar = false) (s : List Char) (n : Nat) :
    s.drop (skipW p s n) = (s.drop n).dropWhile p := by
  rw [skipW_eq hp, ← List.drop_drop, ← dropWhile_eq_drop_takeWhile]

theorem dropWhile_headD {p : Char → Bool} (hp : p nullChar = false) (l : List Char) :
    p ((l.dropWhile p).headD nullChar) = false := by
  induction l with
  | nil => exact hp
  | cons a t ih =>
    by_cases h : p a
    · simpa [List.dropWhile_cons, h] using ih
    · simpa [List.dropWhile_cons, h] using h

theorem charAt_skipW {p : Char → Bool} (hp : p nullChar = false) (s : List Char) (n : Nat) :
    p (charAt s (skipW p s n)) = false := by
  rw [charAt_eq_headD, drop_skipW hp]
  exact dropWhile_headD hp _

/-! Value-level facts about the rational pair model. -/

theorem qVal_mk (n : Int) (d : Nat) : qVal ⟨n, d⟩ = (n : ℚ) / (d : ℚ) := rfl

theorem den_cast_pos {a : Q} (h : a.den ≠ 0) : (0 : ℚ) < (a.den : ℚ) := by
  exact_mod_cast Nat.pos_of_ne_zero h

theorem qVal_nonneg {a : Q} (hn : 0 ≤ a.num) : 0 ≤ qVal a := by
  apply div_nonneg
  · exact_mod_cast hn
  · positivity

theorem qVal_neg_iff {a : Q} (h : a.den ≠ 0) : qVal a < 0 ↔ a.num < 0 := by
  constructor
  · intro hv
    by_contra hge
    exact absurd (qVal_nonneg (by omega)) (not_le.mpr hv)
  · intro hn
    apply div_neg_of_neg_of_pos
    · exact_mod_cast hn
    · exact den_cast_pos h

theorem qVal_eq_zero_iff {a : Q} (h : a.den ≠ 0) : qVal a = 0 ↔ a.num = 0 := by
  rw [qVal, div_eq_zero_iff]
  constructor
  · rintro (h1 | h2)
    · exact_mod_cast h1
    · exact absurd (by exact_mod_cast h2) h
  · intro h1
    left
    exact_mod_cast h1

theorem qVal_pos_iff {a : Q} (h : a.den ≠ 0) : 0 < qVal a ↔ 0 < a.num := by
  have h0 := qVal_eq_zero_iff h
  have h1 := qVal_neg_iff h
  constructor
  · intro hv
    rcases Int.lt_trichotomy a.num 0 with hc | hc | hc
    · exact absurd (h1.mpr hc) (by linarith)
    · exact absurd (h0.mpr hc) (by linarith)
    · exact hc
  · intro hn
    rcases lt_trichotomy (qVal a) 0 with hc | hc | hc
    · exact absurd (h1.mp hc) (by omega)
    · exact absurd (h0.mp hc) (by omega)
    · exact hc

theorem floorQ_spec {a : Q} (h : a.den ≠ 0) :
    (floorQ a : ℚ) ≤ qVal a ∧ qVal a < floorQ a + 1 := by
  have hd : (0 : Int) < (a.den : Int) := by exact_mod_cast Nat.pos_of_ne_zero h
  have heq : (a.den : Int) * a.num.ediv (a.den : Int) + a.num.emod (a.den : Int) = a.num :=
    Int.ediv_add_emod a.num (a.den : Int)
  have hr0 : 0 ≤ a.num.emod (a.den : Int) := Int.emod_nonneg a.num (by omega)
  have hr1 : a.num.emod (a.den : Int) < (a.den : Int) := Int.emod_lt_of_pos a.num hd
  have hdq := den_cast_pos h
  have hle : floorQ a * (a.den : Int) ≤ a.num := by
    unfold floorQ
    nlinarith [heq, hr0]
  have hlt : a.num < (floorQ a + 1) * (a.den : Int) := by
    unfold floorQ
    nlinarith [heq, hr1]
  constructor
  · rw [qVal, le_div_iff hdq]
    exact_mod_cast hle
  · rw [qVal, div_lt_iff hdq]
    exact_mod_cast hlt

theorem floorQ_eq_floor {a : Q} (h : a.den ≠ 0) : floorQ a = ⌊qVal a⌋ := by
  have hs := floorQ_spec h
  exact (Int.floor_eq_iff.mpr ⟨hs.1, hs.2⟩).symm

theorem truncQ_spec {a : Q} (h : a.den ≠ 0) :
    truncQ a = if qVal a < 0 then ⌈qVal a⌉ else ⌊qVal a⌋ := by
  unfold truncQ
  by_cases hn : a.num < 0
  · have hv : qVal a < 0 := (qVal_neg_iff h).mpr hn
    rw [if_pos hn, if_pos hv]
    have hd : (⟨-a.num, a.den⟩ : Q).den ≠ 0 := h
    rw [floorQ_eq_floor hd]
    have hval : qVal ⟨-a.num, a.den⟩ = -qVal a := by
      rw [qVal_mk, qVal]
      push_cast
      ring
    rw [hval, ← Int.ceil_neg, neg_neg]
  · have hv : ¬qVal a < 0 := by
      rw [qVal_neg_iff h]
      exact hn
    rw [if_neg hn, if_neg hv, floorQ_eq_floor h]

/-! Claims C1, C3, C4, C5, C7, C10. -/

/-- C1: each of the four binary operations follows the
representation-selection policy: both operands `isInt` computes the exact
integer operation on the `toLongNumber` conversions and renders it through
the integer formatter, otherwise the double operation is applied to the
`toDoubleNumber` conversions and rendered through the float formatter; in
particular `combine("10","20",add) = "30"`. -/
theorem claim_C1_combine_policy :
    (∀ f s, add f s = combineSpec (· + ·) qAdd f s)
    ∧ (∀ f s, subtract f s = combineSpec (· - ·) qSub f s)
    ∧ (∀ f s, multiply f s = combineSpec (· * ·) qMul f s)
    ∧ (∀ f s, divide f s = combineSpec Int.tdiv qDiv f s)
    ∧ add (['1', '0']) (['2', '0']) = ['3', '0'] := by
  refine ⟨fun f s => rfl, fun f s => rfl, fun f s => rfl, fun f s => rfl, by decide⟩

/-- C3: `calculate` dispatches `+ - * /` to the four arithmetic operations
and fails with the `InternalError` defect signal for every other action
character (never an ordinary return value); in particular
`calculate("1","2",'%')` fails with that error. -/
theorem claim_C3_calculate_dispatch :
    (∀ f s, calculate f s '+' = .ok (add f s))
    ∧ (∀ f s, calculate f s '-' = .ok (subtract f s))
    ∧ (∀ f s, calculate f s '*' = .ok (multiply f s))
    ∧ (∀ f s, calculate f s '/' = .ok (divide f s))
    ∧ (∀ f s c, c ≠ '+' → c ≠ '-' → c ≠ '*' → c ≠ '/' →
        calculate f s c = .error ⟨0, calcMsg c⟩)
    ∧ calculate (['1']) (['2']) '%' = .error ⟨0, calcMsg '%'⟩ := by
  refine ⟨fun f s => rfl, fun f s => rfl, fun f s => rfl, fun f s => rfl, ?_, rfl⟩
  intro f s c h1 h2 h3 h4
  unfold calculate
  split
  · exact absurd rfl h1
  · exact absurd rfl h2
  · exact absurd rfl h3
  · exact absurd rfl h4
  · rfl

/-- C3 witness: `calculate("1","2",'%')` is the defect error. -/
theorem claim_C3_witness :
    calculate (['1']) (['2']) '%' = .error ⟨0, calcMsg '%'⟩ :=
  claim_C3_calculate_dispatch.2.2.2.2.1 (['1']) (['2']) '%'
    (by decide) (by decide) (by decide) (by decide)

/-- C4: `isEqual` holds exactly when the canonically formatted texts of
the two double conversions are identical, `isNotEqual` is its negation;
`isEqual("0.1","1.0E-1")` is true, and the comparison is textual rather
than a direct value comparison, as two operands with distinct double
conversions that format alike also compare equal. -/
theorem claim_C4_isEqual_normalized :
    (∀ a b, isEqual a b = true ↔
      toStringDouble (toDoubleNumber a) = toStringDouble (toDoubleNumber b))
    ∧ (∀ a b, isNotEqual a b = !(isEqual a b))
    ∧ isEqual (['0', '.', '1']) (['1', '.', '0', 'E', '-', '1']) = true
    ∧ isEqual (['1', '.', '0', '0', '0', '0', '0', '0', '1'])
        (['1', '.', '0', '0', '0', '0', '0', '0', '2']) = true
    ∧ toDoubleNumber (['1', '.', '0', '0', '0', '0', '0', '0', '1'])
        ≠ toDoubleNumber (['1', '.', '0', '0', '0', '0', '0', '0', '2']) := by
  refine ⟨fun a b => ?_, fun a b => rfl, by decide, by decide, by decide⟩
  unfold isEqual
  exact beq_iff_eq ..

/-- C5: `toLongNumber` parses hexadecimal stream input when `isHex`, else
octal stream input when `isOct`, else (when the token contains `e` or `E`)
converts via `atof` and truncates toward zero, else parses decimal stream
input; truncation toward zero is the ceiling for negative values and the
floor otherwise; in particular `toIntegerValue("0x1A") = 26`. -/
theorem claim_C5_toLongNumber_branches :
    (∀ s, isHex s = true → toLongNumber s = streamInt 16 s)
    ∧ (∀ s, isHex s = false → isOct s = true → toLongNumber s = streamInt 8 s)
    ∧ (∀ s, isHex s = false → isOct s = false → containsAny s ['e', 'E'] = true →
        toLongNumber s = truncQ (atofQ s))
    ∧ (∀ s, isHex s = false → isOct s = false → containsAny s ['e', 'E'] = false →
        toLongNumber s = streamInt 10 s)
    ∧ (∀ a : Q, a.den ≠ 0 → truncQ a = if qVal a < 0 then ⌈qVal a⌉ else ⌊qVal a⌋)
    ∧ isHex (['0', 'x', '1', 'A']) = true
    ∧ isOct (['0', 'x', '1', 'A']) = false
    ∧ toLongNumber (['0', 'x', '1', 'A']) = 26 := by
  refine ⟨?_, ?_, ?_, ?_, fun a h => truncQ_spec h, by decide, by decide, by decide⟩
  · intro s h
    unfold toLongNumber
    rw [if_pos h]
  · intro s h1 h2
    unfold toLongNumber
    rw [if_neg (by simp [h1]), if_pos h2]
  · intro s h1 h2 h3
    unfold toLongNumber
    rw [if_neg (by simp [h1]), if_neg (by simp [h2]), if_pos h3]
  · intro s h1 h2 h3
    unfold toLongNumber
    rw [if_neg (by simp [h1]), if_neg (by simp [h2]), if_neg (by simp [h3])]

/-- C5 witness: the hexadecimal branch at `"0x1A"`, which evaluates
to 26. -/
theorem claim_C5_witness :
    toLongNumber (['0', 'x', '1', 'A']) = streamInt 16 (['0', 'x', '1', 'A'])
    ∧ streamInt 16 (['0', 'x', '1', 'A']) = 26 :=
  ⟨claim_C5_toLongNumber_branches.1 (['0', 'x', '1', 'A']) (by decide), by decide⟩

/-- C7: `isNullValue` accepts exactly the enumerated zero spellings;
`isNullValue("0.0")` is true, `isNullValue("00")` is false, and every
token that is neither a null spelling nor hexadecimal takes the generic
stream-parse path of the double conversion. -/
theorem claim_C7_isNullValue :
    (∀ s, isNullValue s = true ↔ s ∈ nullSpellings)
    ∧ isNullValue (['0', '.', '0']) = true
    ∧ isNullValue (['0', '0']) = false
    ∧ (∀ s, isNullValue s = false → isHex s = false →
        toDoubleNumber s = istreamDouble s) := by
  refine ⟨fun s => ?_, by decide, by decide, fun s h1 h2 => ?_⟩
  · unfold isNullValue nullSpellings
    simp only [Bool.or_eq_true, beq_iff_eq, List.mem_cons, List.mem_singleton,
      List.not_mem_nil, or_false]
    tauto
  · unfold toDoubleNumber
    rw [if_neg (by simp [h2]), if_neg (by simp [h1])]

/-- C7 witness: `"00"` is outside the spelling set and not hexadecimal,
so its double conversion is the generic stream parse. -/
theorem claim_C7_witness :
    toDoubleNumber (['0', '0']) = istreamDouble (['0', '0']) :=
  claim_C7_isNullValue.2.2.2 (['0', '0']) (by decide) (by decide)

theorem take_two_of_drop {l : List Char} {p : Nat} {a b : Char}
    (h : (l.drop p).take 2 = [a, b]) :
    charAt l p = a ∧ charAt l (p + 1) = b ∧ p + 2 ≤ l.length := by
  rcases hd : l.drop p with _ | ⟨c, r⟩
  · rw [hd] at h
    simp at h
  · rcases hr : r with _ | ⟨d, r2⟩
    · rw [hd, hr] at h
      simp at h
    · rw [hd, hr] at h
      simp at h
      obtain ⟨hca, hdb⟩ := h
      have hlen : l.length - p = r2.length + 2 := by
        have := List.length_drop p l
        rw [hd, hr] at this
        simp at this
        omega
      have hp2 : p + 2 ≤ l.length := by
        rcases Nat.lt_or_ge p l.length with h1 | h1
        · omega
        · rw [List.drop_eq_nil_of_le h1] at hd
          simp at hd
      refine ⟨?_, ?_, hp2⟩
      · rw [charAt_eq_headD, hd, hr, hca]
        rfl
      · rw [charAt_eq_headD, ← List.drop_drop, hd, hr, hdb]
        rfl

theorem isHex_shape {s : List Char} (h : isHex s = true) :
    charAt s (if signAt0 s then 1 else 0) = '0'
    ∧ (charAt s ((if signAt0 s then 1 else 0) + 1) = 'x'
        ∨ charAt s ((if signAt0 s then 1 else 0) + 1) = 'X')
    ∧ (if signAt0 s then 1 else 0) + 2 ≤ s.length := by
  unfold isHex at h
  simp only [Bool.or_eq_true, beq_iff_eq] at h
  rcases h with h | h
  · obtain ⟨h1, h2, h3⟩ := take_two_of_drop h
    exact ⟨h1, Or.inl h2, h3⟩
  · obtain ⟨h1, h2, h3⟩ := take_two_of_drop h
    exact ⟨h1, Or.inr h2, h3⟩

/-- C10: a token classified hexadecimal is never classified octal: the
character after the leading `0` is `x` or `X`, which is not an octal
digit, and the token is longer than one character. -/
theorem claim_C10_hex_oct_exclusive : ∀ s, isHex s = true → isOct s = false := by
  intro s h
  obtain ⟨h0, hx, hlen⟩ := isHex_shape h
  unfold isOct
  have hne1 : (s.length == 1) = false := by
    have h2 : s.length ≠ 1 := by omega
    exact beq_eq_false_iff_ne.mpr h2
  have hidx : (if signAt0 s then 1 else 0) + 1 = (if signAt0 s then 2 else 1) := by
    by_cases hs : signAt0 s <;> simp [hs]
  have hoct : isOctalDigit (charAt s (if signAt0 s then 2 else 1)) = false := by
    rw [← hidx]
    rcases hx with hx | hx
    · rw [hx]; decide
    · rw [hx]; decide
  rw [hne1]
  simp only [Bool.false_or]
  rw [hoct]
  simp

/-- C10 witness: `"0x1A"` is hexadecimal, hence not octal. -/
theorem claim_C10_witness : isOct (['0', 'x', '1', 'A']) = false :=
  claim_C10_hex_oct_exclusive (['0', 'x', '1', 'A']) (by decide)

/-- C6 counterexample: the claim's reading of `isOct` accepts the signed
token `"+0"` (sign, `0`, end-of-token), but the source rejects it, because
the end-of-token alternative compares the whole length — sign included —
to 1. -/
theorem claim_C6_counterexample :
    isOctClaim (['+', '0']) = true ∧ isOct (['+', '0']) = false := by
  exact ⟨by decide, by decide⟩

theorem length_one_eq_single {s : List Char} (h : s.length = 1) : s = [charAt s 0] := by
  rcases s with _ | ⟨a, t⟩
  · simp at h
  · rcases t with _ | ⟨b, r⟩
    · rfl
    · simp at h

/-- C6 amended: `isOct` returns true iff, after an optional leading sign,
the token starts with `0` followed by an octal digit, or the token is the
single unsigned character `0`; and the token is not classified floating.
(The end-of-token case of the claim applies only when no sign is present.) -/
theorem claim_C6_amended : ∀ s, isOct s = isOctAmended s := by
  intro s
  unfold isOct isOctAmended
  dsimp only
  have hidx : (if signAt0 s then 1 else 0) + 1 = (if signAt0 s then 2 else 1) := by
    by_cases hs : signAt0 s <;> simp [hs]
  rw [← hidx]
  by_cases h0 : charAt s (if signAt0 s then 1 else 0) = '0'
  · suffices hsuf : (s.length == 1) = (s == ['0']) by rw [hsuf]
    by_cases hs : signAt0 s
    · rw [hs] at h0
      simp only [if_true] at h0
      have hlen : 2 ≤ s.length := by
        by_contra hc
        rw [charAt_of_len_le (by omega)] at h0
        exact absurd h0 (by decide)
      have e1 : (s.length == 1) = false := beq_eq_false_iff_ne.mpr (by omega)
      have e2 : (s == ['0']) = false := by
        apply beq_eq_false_iff_ne.mpr
        intro hc
        rw [hc] at hlen
        simp at hlen
      rw [e1, e2]
    · rw [if_neg hs] at h0
      rcases hl : s.length with _ | ⟨_ | k⟩
      · rw [List.length_eq_zero] at hl
        subst hl
        rfl
      · have := length_one_eq_single hl
        rw [h0] at this
        rw [this]
        rfl
      · have e2 : (s == ['0']) = false := by
          apply beq_eq_false_iff_ne.mpr
          intro hc
          rw [hc] at hl
          simp at hl
        rw [e2]
        rfl
  · have hb : (charAt s (if signAt0 s then 1 else 0) == '0') = false :=
      beq_eq_false_iff_ne.mpr h0
    rw [hb]
    simp

/-! Sign analysis: formatted integers, stream extraction and `isNegative`. -/

theorem isDigitC_toDigitChar {d : Nat} (h : d < 10) : isDigitC (toDigitChar d) = true := by
  interval_cases d <;> decide

theorem natDigitsF_all {fuel n : Nat} : ∀ c ∈ natDigitsF fuel n, isDigitC c = true := by
  induction fuel generalizing n with
  | zero => simp [natDigitsF]
  | succ fuel ih =>
    intro c hc
    unfold natDigitsF at hc
    by_cases h : n < 10
    · rw [if_pos h] at hc
      simp at hc
      rw [hc]
      exact isDigitC_toDigitChar h
    · rw [if_neg h] at hc
      rcases List.mem_append.mp hc with h1 | h1
      · exact ih c h1
      · simp at h1
        rw [h1]
        exact isDigitC_toDigitChar (Nat.mod_lt n (by omega))

theorem natDigits_all {n : Nat} : ∀ c ∈ natDigits n, isDigitC c = true := natDigitsF_all

theorem natDigits_ne_nil (n : Nat) : natDigits n ≠ [] := by
  unfold natDigits natDigitsF
  by_cases h : n < 10 <;> simp [h]

theorem digit_ne_minus {c : Char} (h : isDigitC c = true) : c ≠ '-' := by
  intro hc
  rw [hc] at h
  exact absurd h (by decide)

theorem charAt_toStringBigint {i : Int} : charAt (toStringBigint i) 0 = '-' ↔ i < 0 := by
  unfold toStringBigint
  by_cases h : i < 0
  · simp [h, charAt]
  · rw [if_neg h]
    constructor
    · intro hc
      rcases hnd : natDigits i.natAbs with _ | ⟨a, t⟩
      · exact absurd hnd (natDigits_ne_nil _)
      · rw [hnd] at hc
        have ha : a ∈ natDigits i.natAbs := by rw [hnd]; simp
        have := digit_ne_minus (natDigits_all a ha)
        rw [show charAt (a :: t) 0 = a from rfl] at hc
        exact absurd hc this
    · intro hc
      exact absurd hc h

theorem isNegative_iff_head (s : List Char) :
    isNegative s = true ↔ (s.dropWhile isSpaceC).headD nullChar = '-' := by
  unfold isNegative
  rw [charAt_eq_headD, drop_skipW (by decide) s 0, List.drop_zero]
  simp [beq_iff_eq]

theorem readSign_fst_iff (l : List Char) :
    (readSign l).1 = true ↔ l.headD nullChar = '-' := by
  cases l with
  | nil =>
    constructor
    · intro h
      exact absurd h (by decide)
    · intro h
      exact absurd h (by decide)
  | cons a t =>
    unfold readSign
    by_cases h1 : a = '-'
    · simp [h1]
    · by_cases h2 : a = '+'
      · simp [h1, h2]
      · simp [h1, h2]

theorem streamInt_neg {b : Nat} {s : List Char} (h : streamInt b s < 0) :
    isNegative s = true := by
  unfold streamInt at h
  dsimp only at h
  by_cases hp : (readSign (s.dropWhile isSpaceC)).1 = true
  · rw [isNegative_iff_head, ← readSign_fst_iff]
    exact hp
  · rw [if_neg hp] at h
    exact absurd h (by omega)

theorem streamInt_nonpos {b : Nat} {s : List Char} (h : isNegative s = true) :
    streamInt b s ≤ 0 := by
  unfold streamInt
  dsimp only
  rw [isNegative_iff_head, ← readSign_fst_iff] at h
  rw [if_pos h]
  simp

theorem scanFloat_neg_eq (s : List Char) :
    (scanFloat s).neg = (readSign (s.dropWhile isSpaceC)).1 := rfl

theorem floatScanMant_num_neg {f : FloatScan} (h : (floatScanMant f).num < 0) :
    f.neg = true := by
  unfold floatScanMant at h
  dsimp only at h
  by_cases hn : f.neg = true
  · exact hn
  · rw [if_neg hn] at h
    simp at h
    exact absurd h (by omega)

theorem floatScanMant_num_nonpos {f : FloatScan} (h : f.neg = true) :
    (floatScanMant f).num ≤ 0 := by
  unfold floatScanMant
  dsimp only
  rw [if_pos h]
  simp

theorem qMulPow10_num_neg_iff (a : Q) (e : Int) :
    ((qMulPow10 a e).num < 0 ↔ a.num < 0)
    ∧ ((qMulPow10 a e).num ≤ 0 ↔ a.num ≤ 0) := by
  unfold qMulPow10
  by_cases he : 0 ≤ e
  · rw [if_pos he]
    dsimp only
    have hp : (0 : Int) < 10 ^ e.toNat := by positivity
    constructor
    · constructor
      · intro h
        by_contra hge
        nlinarith [mul_nonneg (by omega : (0:Int) ≤ a.num) (le_of_lt hp)]
      · intro h
        exact mul_neg_of_neg_of_pos h hp
    · constructor
      · intro h
        by_contra hge
        nlinarith [mul_pos (by omega : (0:Int) < a.num) hp]
      · intro h
        exact mul_nonpos_of_nonpos_of_nonneg h (by positivity)
  · rw [if_neg he]
    exact ⟨Iff.rfl, Iff.rfl⟩

theorem atofQ_num_neg {s : List Char} (h : (atofQ s).num < 0) : isNegative s = true := by
  unfold atofQ at h
  dsimp only at h
  rw [isNegative_iff_head, ← readSign_fst_iff, ← scanFloat_neg_eq]
  split at h
  · exact absurd h (by decide)
  · split at h
    · exact floatScanMant_num_neg h
    · exact floatScanMant_num_neg (((qMulPow10_num_neg_iff _ _).1).mp h)

theorem atofQ_num_nonpos {s : List Char} (h : isNegative s = true) : (atofQ s).num ≤ 0 := by
  unfold atofQ
  dsimp only
  rw [isNegative_iff_head, ← readSign_fst_iff, ← scanFloat_neg_eq] at h
  split
  · decide
  · split
    · exact floatScanMant_num_nonpos h
    · exact ((qMulPow10_num_neg_iff _ _).2).mpr (floatScanMant_num_nonpos h)

theorem floorQ_nonneg {a : Q} (h : 0 ≤ a.num) : 0 ≤ floorQ a := by
  unfold floorQ
  exact Int.ediv_nonneg h (by positivity)

theorem truncQ_neg_num {a : Q} (h : truncQ a < 0) : a.num < 0 := by
  unfold truncQ at h
  by_cases hn : a.num < 0
  · exact hn
  · rw [if_neg hn] at h
    have := floorQ_nonneg (a := a) (by omega)
    omega

theorem truncQ_nonpos_num {a : Q} (h : a.num ≤ 0) : truncQ a ≤ 0 := by
  unfold truncQ
  by_cases hn : a.num < 0
  · rw [if_pos hn]
    have : 0 ≤ floorQ ⟨-a.num, a.den⟩ := floorQ_nonneg (by dsimp only; omega)
    omega
  · rw [if_neg hn]
    have hz : a.num = 0 := by omega
    unfold floorQ
    rw [hz]
    have hzd : Int.ediv 0 (a.den : Int) = 0 := by
      unfold Int.ediv
      cases (a.den : Int) <;> simp
    omega

theorem toLongNumber_neg {s : List Char} (h : toLongNumber s < 0) : isNegative s = true := by
  unfold toLongNumber at h
  split at h
  · exact streamInt_neg h
  · split at h
    · exact streamInt_neg h
    · split at h
      · exact atofQ_num_neg (truncQ_neg_num h)
      · exact streamInt_neg h

theorem toLongNumber_nonpos {s : List Char} (h : isNegative s = true) :
    toLongNumber s ≤ 0 := by
  unfold toLongNumber
  split
  · exact streamInt_nonpos h
  · split
    · exact streamInt_nonpos h
    · split
      · exact truncQ_nonpos_num (atofQ_num_nonpos h)
      · exact streamInt_nonpos h

/-- C8 counterexample: `"-0"` is accepted by `isInt` and classified
negative by `isNegative`, yet its integer conversion formats as `"0"`,
with no leading `-` sign — the claimed equivalence fails for negative
spellings of zero. -/
theorem claim_C8_counterexample :
    isInt (['-', '0']) = true ∧ isNegative (['-', '0']) = true
    ∧ toStringBigint (toLongNumber (['-', '0'])) = ['0']
    ∧ ¬charAt (toStringBigint (toLongNumber (['-', '0']))) 0 = '-' := by
  refine ⟨by decide, by decide, by decide, by decide⟩

/-- C8 amended: for every token accepted by `isInt`, the canonical integer
formatting of its conversion is a base-10 digit string (each character a
digit, apart from an optional leading `-`, and never empty) whose leading
`-` is present iff `isNegative` holds AND the converted value is nonzero
(tokens spelling negative zero format without a sign). -/
theorem claim_C8_amended : ∀ s, isInt s = true →
    (charAt (toStringBigint (toLongNumber s)) 0 = '-'
      ↔ (isNegative s = true ∧ toLongNumber s ≠ 0))
    ∧ (∀ c ∈ toStringBigint (toLongNumber s), isDigitC c = true ∨ c = '-')
    ∧ toStringBigint (toLongNumber s) ≠ [] := by
  intro s _
  refine ⟨?_, ?_, ?_⟩
  · rw [charAt_toStringBigint]
    constructor
    · intro h
      exact ⟨toLongNumber_neg h, by omega⟩
    · intro ⟨h1, h2⟩
      have := toLongNumber_nonpos h1
      omega
  · intro c hc
    unfold toStringBigint at hc
    split at hc
    · rcases List.mem_cons.mp hc with hc | hc
      · exact Or.inr hc
      · exact Or.inl (natDigits_all c hc)
    · exact Or.inl (natDigits_all c hc)
  · unfold toStringBigint
    split
    · simp
    · exact natDigits_ne_nil _

/-- C8 witness: the amended equivalence evaluated at `"-5"`. -/
theorem claim_C8_witness :
    charAt (toStringBigint (toLongNumber (['-', '5']))) 0 = '-'
      ↔ (isNegative (['-', '5']) = true ∧ toLongNumber (['-', '5']) ≠ 0) :=
  (claim_C8_amended (['-', '5']) (by decide)).1

/-! Claim C2: the `isInt` scanner matches its specification reading. -/

theorem isOct_shape {s : List Char} (h : isOct s = true) :
    charAt s (if signAt0 s then 1 else 0) = '0' := by
  unfold isOct at h
  dsimp only at h
  simp only [Bool.and_eq_true, beq_iff_eq] at h
  exact h.1.1

theorem charAt0_of_sign {s : List Char} (h : signAt0 s = true) :
    charAt s 0 = '-' ∨ charAt s 0 = '+' := by
  unfold signAt0 at h
  simp only [Bool.or_eq_true, beq_iff_eq] at h
  exact h

theorem skipW0_of_hex {s : List Char} (h : isHex s = true) : skipW isSpaceC s 0 = 0 := by
  apply skipW_of_head_false (by decide)
  by_cases hs : signAt0 s
  · rcases charAt0_of_sign hs with h0 | h0 <;> rw [h0] <;> decide
  · have h0 := (isHex_shape h).1
    rw [if_neg hs] at h0
    rw [h0]
    decide

theorem skipW0_of_oct {s : List Char} (h : isOct s = true) : skipW isSpaceC s 0 = 0 := by
  apply skipW_of_head_false (by decide)
  by_cases hs : signAt0 s
  · rcases charAt0_of_sign hs with h0 | h0 <;> rw [h0] <;> decide
  · have h0 := isOct_shape h
    rw [if_neg hs] at h0
    rw [h0]
    decide

/-- C2: the source `isInt` scanner agrees with the specification's
description on every string: prechecks for `.` and `E-`/`e-`, mode chosen
by priority Scientific (uppercase `E`) / Hex / Octal / Default, leading
whitespace and one optional sign skipped, the chosen mode's grammar
consumed (with the `0x` marker and leading `0` verified in the Hex and
Octal modes), a case-insensitive `u`/`l` suffix run for the non-scientific
modes, trailing whitespace skipped, and the scan required to reach the end
of the token. -/
theorem claim_C2_isInt_scan : ∀ s, isInt s = isIntSpec s := by
  intro s
  unfold isInt isIntSpec specMode
  by_cases h1 : containsL s ['.'] = true
  · rw [h1]
    simp
  · have h1f : containsL s ['.'] = false := by simpa using h1
    rw [h1f]
    by_cases h2 : (containsL s ['E', '-'] || containsL s ['e', '-']) = true
    · rw [h2]
      simp
    · have h2f : (containsL s ['E', '-'] || containsL s ['e', '-']) = false := by
        simpa using h2
      rw [h2f]
      simp only [Bool.or_false, Bool.false_eq_true, if_false]
      by_cases hE : containsL s ['E'] = true
      · rw [hE]
        simp only [if_true]
        generalize (if charAt s (skipW isSpaceC s 0) == '-'
            || charAt s (skipW isSpaceC s 0) == '+'
          then skipW isSpaceC s 0 + 1 else skipW isSpaceC s 0) = n
        unfold specSciTail
        dsimp only
        generalize skipW isDigitC s n = n2
        by_cases he : (toLowerC (charAt s n2) == 'e') = true
        · rw [he]
          simp only [if_true]
          generalize (if charAt s (n2 + 1) == '+' then n2 + 1 + 1 else n2 + 1) = n3
          by_cases hm : (charAt s n3 == '-') = true
          · rw [hm]
            simp
          · have hmf : (charAt s n3 == '-') = false := by simpa using hm
            rw [hmf]
            simp
        · have hef : (toLowerC (charAt s n2) == 'e') = false := by simpa using he
          rw [hef]
          simp
      · have hEf : containsL s ['E'] = false := by simpa using hE
        rw [hEf]
        simp only [Bool.false_eq_true, if_false]
        by_cases hH : isHex s = true
        · rw [hH]
          simp only [if_true]
          rw [skipW0_of_hex hH]
          obtain ⟨hc0, hcx, _⟩ := isHex_shape hH
          unfold signAt0 at hc0 hcx
          unfold specHexTail
          generalize hgn : (if charAt s 0 == '-' || charAt s 0 == '+' then 0 + 1 else 0) = n
          have hn0 : charAt s n = '0' := by
            rw [← hgn]
            by_cases hs : (charAt s 0 == '-' || charAt s 0 == '+') = true
            · rw [hs] at hc0 ⊢
              simpa using hc0
            · have hsf : (charAt s 0 == '-' || charAt s 0 == '+') = false := by simpa using hs
              rw [hsf] at hc0 ⊢
              simpa using hc0
          have hnx : charAt s (n + 1) = 'x' ∨ charAt s (n + 1) = 'X' := by
            rw [← hgn]
            by_cases hs : (charAt s 0 == '-' || charAt s 0 == '+') = true
            · rw [hs] at hcx ⊢
              simpa using hcx
            · have hsf : (charAt s 0 == '-' || charAt s 0 == '+') = false := by simpa using hs
              rw [hsf] at hcx ⊢
              simpa using hcx
          have hcond : (charAt s n == '0'
              && (charAt s (n + 1) == 'x' || charAt s (n + 1) == 'X')) = true := by
            simp only [Bool.and_eq_true, Bool.or_eq_true, beq_iff_eq]
            exact ⟨hn0, hnx⟩
          rw [hcond]
          simp
        · have hHf : isHex s = false := by simpa using hH
          rw [hHf]
          simp only [Bool.false_eq_true, if_false]
          by_cases hO : isOct s = true
          · rw [hO]
            simp only [if_true]
            rw [skipW0_of_oct hO]
            have hc0 := isOct_shape hO
            unfold signAt0 at hc0
            unfold specOctTail
            generalize hgn : (if charAt s 0 == '-' || charAt s 0 == '+' then 0 + 1 else 0) = n
            have hn0 : charAt s n = '0' := by
              rw [← hgn]
              by_cases hs : (charAt s 0 == '-' || charAt s 0 == '+') = true
              · rw [hs] at hc0 ⊢
                simpa using hc0
              · have hsf : (charAt s 0 == '-' || charAt s 0 == '+') = false := by
                  simpa using hs
                rw [hsf] at hc0 ⊢
                simpa using hc0
            have hcond : (charAt s n == '0') = true := by simpa using hn0
            rw [hcond]
            simp
          · have hOf : isOct s = false := by simpa using hO
            rw [hOf]
            simp only [Bool.false_eq_true, if_false]
            unfold specDefaultTail
            generalize (if charAt s (skipW isSpaceC s 0) == '-'
                || charAt s (skipW isSpaceC s 0) == '+'
              then skipW isSpaceC s 0 + 1 else skipW isSpaceC s 0) = n
            dsimp only
            by_cases hd : (skipW isDigitC s n == n) = true
            · rw [hd]
              simp
            · have hdf : (skipW isDigitC s n == n) = false := by simpa using hd
              rw [hdf]
              simp

/-! Claim C9, part 1: value-level characterisation of the comparison,
scaling, rounding and decimal-exponent primitives of the formatter. -/

theorem qLt_iff {a b : Q} (ha : a.den ≠ 0) (hb : b.den ≠ 0) :
    qLt a b = true ↔ qVal a < qVal b := by
  unfold qLt qVal
  rw [div_lt_div_iff (den_cast_pos ha) (den_cast_pos hb)]
  rw [decide_eq_true_eq]
  constructor
  · intro h
    exact_mod_cast h
  · intro h
    exact_mod_cast h

theorem qLe_iff {a b : Q} (ha : a.den ≠ 0) (hb : b.den ≠ 0) :
    qLe a b = true ↔ qVal a ≤ qVal b := by
  unfold qLe qVal
  rw [div_le_div_iff (den_cast_pos ha) (den_cast_pos hb)]
  rw [decide_eq_true_eq]
  constructor
  · intro h
    exact_mod_cast h
  · intro h
    exact_mod_cast h

theorem qAbs_den (a : Q) : (qAbs a).den = a.den := rfl

theorem qVal_qAbs {a : Q} : qVal (qAbs a) = |qVal a| := by
  unfold qAbs qVal
  dsimp only
  rw [abs_div]
  have h1 : |(a.num : ℚ)| = ((a.num.natAbs : Int) : ℚ) := by
    rw [← Int.cast_abs, Int.abs_eq_natAbs]
  have h2 : |(a.den : ℚ)| = (a.den : ℚ) := abs_of_nonneg (by positivity)
  rw [h1, h2]

theorem qMulPow10_den_ne {a : Q} (h : a.den ≠ 0) (e : Int) : (qMulPow10 a e).den ≠ 0 := by
  unfold qMulPow10
  by_cases he : 0 ≤ e
  · rw [if_pos he]
    exact h
  · rw [if_neg he]
    dsimp only
    positivity

theorem zpow_toNat_of_nonneg {e : Int} (h : 0 ≤ e) : (10:ℚ) ^ e = (10:ℚ) ^ e.toNat := by
  rw [← zpow_natCast (10:ℚ) e.toNat, Int.toNat_of_nonneg h]

theorem qVal_qMulPow10 {a : Q} (h : a.den ≠ 0) (e : Int) :
    qVal (qMulPow10 a e) = qVal a * (10:ℚ) ^ e := by
  unfold qMulPow10
  by_cases he : 0 ≤ e
  · rw [if_pos he]
    unfold qVal
    dsimp only
    rw [zpow_toNat_of_nonneg he]
    push_cast
    ring
  · rw [if_neg he]
    unfold qVal
    dsimp only
    have he2 : ((10:ℚ) ^ (-e).toNat)⁻¹ = (10:ℚ) ^ e := by
      rw [← zpow_toNat_of_nonneg (show (0:Int) ≤ -e by omega), zpow_neg, inv_inv]
    rw [← he2]
    have hp : ((10:ℚ) ^ (-e).toNat) ≠ 0 := by positivity
    have hd : ((a.den:ℚ)) ≠ 0 := by
      have := den_cast_pos h
      linarith
    push_cast
    field_simp

theorem qVal_qSubInt {a : Q} (h : a.den ≠ 0) (k : Int) :
    qVal (qSubInt a k) = qVal a - (k : ℚ) := by
  unfold qSubInt qVal
  dsimp only
  have hd : ((a.den:ℚ)) ≠ 0 := by
    have := den_cast_pos h
    linarith
  push_cast
  field_simp
  ring

theorem qSubInt_den (a : Q) (k : Int) : (qSubInt a k).den = a.den := rfl

theorem rne_int {a : Q} (hden : a.den ≠ 0) {k : Int} (h : qVal a = (k : ℚ)) :
    rne a = k := by
  unfold rne
  dsimp only
  have hf : floorQ a = k := by
    rw [floorQ_eq_floor hden, h, Int.floor_intCast]
  rw [hf]
  have hr : qVal (qSubInt a k) = 0 := by
    rw [qVal_qSubInt hden, h]
    ring
  have hlt : qLt (qSubInt a k) ⟨1, 2⟩ = true := by
    rw [qLt_iff (by rw [qSubInt_den]; exact hden) (by norm_num), hr]
    norm_num [qVal_mk]
  rw [hlt]
  simp

theorem rne_bounds {a : Q} : floorQ a ≤ rne a ∧ rne a ≤ floorQ a + 1 := by
  unfold rne
  dsimp only
  split
  · omega
  · split
    · omega
    · split
      · omega
      · omega

theorem natLog10F_spec : ∀ fuel n, 1 ≤ n → n ≤ fuel →
    10 ^ natLog10F fuel n ≤ n ∧ n < 10 ^ (natLog10F fuel n + 1) := by
  intro fuel
  induction fuel with
  | zero =>
    intro n h1 h2
    omega
  | succ fuel ih =>
    intro n h1 h2
    unfold natLog10F
    by_cases h : n < 10
    · rw [if_pos h]
      constructor
      · simpa using h1
      · simpa using h
    · rw [if_neg h]
      have hn10 : 10 ≤ n := by omega
      have hrec := ih (n / 10) (by omega) (by omega)
      constructor
      · calc 10 ^ (natLog10F fuel (n / 10) + 1)
            = 10 ^ natLog10F fuel (n / 10) * 10 := by ring
          _ ≤ n / 10 * 10 := by
              exact Nat.mul_le_mul_right 10 hrec.1
          _ ≤ n := by omega
      · calc n < n / 10 * 10 + 10 := by omega
          _ ≤ (10 ^ (natLog10F fuel (n / 10) + 1) - 1) * 10 + 10 := by
              have := hrec.2
              have hle : n / 10 ≤ 10 ^ (natLog10F fuel (n / 10) + 1) - 1 := by omega
              exact Nat.add_le_add_right (Nat.mul_le_mul_right 10 hle) 10
          _ ≤ 10 ^ (natLog10F fuel (n / 10) + 1 + 1) := by
              have hp : 1 ≤ 10 ^ (natLog10F fuel (n / 10) + 1) := Nat.one_le_pow _ _ (by omega)
              calc (10 ^ (natLog10F fuel (n / 10) + 1) - 1) * 10 + 10
                  = 10 ^ (natLog10F fuel (n / 10) + 1) * 10 - 10 + 10 := by
                    rw [Nat.sub_mul]
                _ ≤ 10 ^ (natLog10F fuel (n / 10) + 1) * 10 := by
                    have : 10 ≤ 10 ^ (natLog10F fuel (n / 10) + 1) * 10 := by
                      nlinarith
                    omega
                _ = 10 ^ (natLog10F fuel (n / 10) + 1 + 1) := by ring

theorem natLog10_spec {n : Nat} (h : 1 ≤ n) :
    10 ^ natLog10 n ≤ n ∧ n < 10 ^ (natLog10 n + 1) :=
  natLog10F_spec n n h (Nat.le_refl n)

theorem natClog10F_spec : ∀ fuel m, m ≤ fuel →
    m ≤ 10 ^ natClog10F fuel m
    ∧ (natClog10F fuel m = 0 ∨ 10 ^ (natClog10F fuel m - 1) < m) := by
  intro fuel
  induction fuel with
  | zero =>
    intro m h2
    unfold natClog10F
    constructor
    · omega
    · exact Or.inl rfl
  | succ fuel ih =>
    intro m h2
    unfold natClog10F
    by_cases h : m ≤ 1
    · rw [if_pos h]
      constructor
      · simpa using h
      · exact Or.inl rfl
    · rw [if_neg h]
      have hm2 : 2 ≤ m := by omega
      have hlt : (m + 9) / 10 ≤ fuel := by omega
      have hrec := ih ((m + 9) / 10) hlt
      have hk1 : (m + 9) / 10 ≥ 1 := by omega
      constructor
      · have h1 : m ≤ (m + 9) / 10 * 10 := by omega
        calc m ≤ (m + 9) / 10 * 10 := h1
          _ ≤ 10 ^ natClog10F fuel ((m + 9) / 10) * 10 := by
              exact Nat.mul_le_mul_right 10 hrec.1
          _ = 10 ^ (natClog10F fuel ((m + 9) / 10) + 1) := by ring
      · right
        rcases hrec.2 with hz | hgt
        · rw [hz]
          simpa using hm2
        · have hk : 1 ≤ natClog10F fuel ((m + 9) / 10) := by
            by_contra hc
            have hz0 : natClog10F fuel ((m + 9) / 10) = 0 := by omega
            have hub := hrec.1
            rw [hz0] at hgt hub
            simp at hgt hub
            omega
          have h10 : 10 ^ (natClog10F fuel ((m + 9) / 10) - 1) * 10
              = 10 ^ natClog10F fuel ((m + 9) / 10) := by
            rw [← pow_succ]
            congr 1
            omega
          simp only [Nat.add_sub_cancel]
          omega

theorem natClog10_spec {m : Nat} :
    m ≤ 10 ^ natClog10 m ∧ (natClog10 m = 0 ∨ 10 ^ (natClog10 m - 1) < m) :=
  natClog10F_spec m m (Nat.le_refl m)

theorem decExp_spec {a : Q} (hden : a.den ≠ 0) (hpos : 0 < qVal a) :
    (10:ℚ) ^ decExp a ≤ qVal a ∧ qVal a < (10:ℚ) ^ (decExp a + 1) := by
  unfold decExp
  by_cases hge : qLe ⟨1, 1⟩ a = true
  · rw [if_pos hge]
    have h1 : (1:ℚ) ≤ qVal a := by
      have := (qLe_iff (show (⟨1, 1⟩ : Q).den ≠ 0 by decide) hden).mp hge
      simpa [qVal_mk] using this
    have hfl : floorQ a = ⌊qVal a⌋ := floorQ_eq_floor hden
    have hf1 : 1 ≤ floorQ a := by
      rw [hfl]
      exact_mod_cast Int.le_floor.mpr (by exact_mod_cast h1)
    have htn : ((floorQ a).toNat : Int) = floorQ a := Int.toNat_of_nonneg (by omega)
    have hspec := natLog10_spec (n := (floorQ a).toNat) (by omega)
    constructor
    · rw [zpow_natCast]
      calc ((10:ℚ)) ^ natLog10 (floorQ a).toNat
          ≤ (((floorQ a).toNat : Nat) : ℚ) := by exact_mod_cast hspec.1
        _ = ((floorQ a : ℚ)) := by exact_mod_cast htn
        _ ≤ qVal a := by rw [hfl]; exact Int.floor_le _
    · have h2 : (floorQ a).toNat < 10 ^ (natLog10 (floorQ a).toNat + 1) := hspec.2
      have h3 : qVal a < floorQ a + 1 := by
        rw [hfl]
        exact Int.lt_floor_add_one _
      have h4 : floorQ a + 1 ≤ (10:Int) ^ (natLog10 (floorQ a).toNat + 1) := by
        have : floorQ a < (10:Int) ^ (natLog10 (floorQ a).toNat + 1) := by
          rw [← htn]
          exact_mod_cast h2
        omega
      have h5 : ((natLog10 (floorQ a).toNat : Int) + 1)
          = (((natLog10 (floorQ a).toNat + 1 : Nat)) : Int) := by push_cast; ring
      rw [h5, zpow_natCast]
      calc qVal a < ((floorQ a : ℚ)) + 1 := h3
        _ ≤ (((10:Int) ^ (natLog10 (floorQ a).toNat + 1) : Int) : ℚ) := by exact_mod_cast h4
        _ = (10:ℚ) ^ (natLog10 (floorQ a).toNat + 1) := by push_cast; ring
  · rw [if_neg hge]
    have hnum : 0 < a.num := (qVal_pos_iff hden).mp hpos
    have hlt : a.num < (a.den : Int) := by
      unfold qLe at hge
      simp only [decide_eq_true_eq] at hge
      omega
    have hn0 : 0 < a.num.toNat := by omega
    have htn : (a.num.toNat : Int) = a.num := Int.toNat_of_nonneg (by omega)
    have hdm := Nat.div_add_mod (a.den + a.num.toNat - 1) a.num.toNat
    have hmod : (a.den + a.num.toNat - 1) % a.num.toNat < a.num.toNat :=
      Nat.mod_lt _ hn0
    have hden1 : a.num.toNat < a.den := by omega
    have hclo : a.den ≤ a.num.toNat * ((a.den + a.num.toNat - 1) / a.num.toNat) := by
      omega
    have hc2 : 2 ≤ (a.den + a.num.toNat - 1) / a.num.toNat := by
      rw [Nat.le_div_iff_mul_le hn0]
      omega
    have hcs := natClog10_spec (m := (a.den + a.num.toNat - 1) / a.num.toNat)
    have hk1 : 1 ≤ natClog10 ((a.den + a.num.toNat - 1) / a.num.toNat) := by
      by_contra hc
      have hz : natClog10 ((a.den + a.num.toNat - 1) / a.num.toNat) = 0 := by omega
      have := hcs.1
      rw [hz] at this
      simp at this
      omega
    have hup : a.den ≤ a.num.toNat * 10 ^ natClog10 ((a.den + a.num.toNat - 1) / a.num.toNat) := by
      calc a.den ≤ a.num.toNat * ((a.den + a.num.toNat - 1) / a.num.toNat) := hclo
        _ ≤ a.num.toNat * 10 ^ natClog10 ((a.den + a.num.toNat - 1) / a.num.toNat) :=
            Nat.mul_le_mul_left _ hcs.1
    have hlo : a.num.toNat
        * 10 ^ (natClog10 ((a.den + a.num.toNat - 1) / a.num.toNat) - 1) < a.den := by
      rcases hcs.2 with hz | hgt
      · omega
      · have h1 : 10 ^ (natClog10 ((a.den + a.num.toNat - 1) / a.num.toNat) - 1) + 1
            ≤ (a.den + a.num.toNat - 1) / a.num.toNat := by omega
        have h2 := Nat.mul_le_mul_left a.num.toNat h1
        have h3 : a.num.toNat
            * (10 ^ (natClog10 ((a.den + a.num.toNat - 1) / a.num.toNat) - 1) + 1)
            = a.num.toNat
              * 10 ^ (natClog10 ((a.den + a.num.toNat - 1) / a.num.toNat) - 1)
              + a.num.toNat := by ring
        omega
    constructor
    · rw [zpow_neg, zpow_natCast, inv_eq_one_div, qVal,
        div_le_div_iff (by positivity) (den_cast_pos hden)]
      have : (a.den : ℚ) ≤ (a.num : ℚ)
          * 10 ^ natClog10 ((a.den + a.num.toNat - 1) / a.num.toNat) := by
        rw [← htn]
        exact_mod_cast hup
      linarith
    · have hexp : -(natClog10 ((a.den + a.num.toNat - 1) / a.num.toNat) : Int) + 1
          = -(((natClog10 ((a.den + a.num.toNat - 1) / a.num.toNat) - 1 : Nat)) : Int) := by
        push_cast [hk1]
        ring
      rw [hexp, zpow_neg, zpow_natCast, inv_eq_one_div, qVal,
        div_lt_div_iff (den_cast_pos hden) (by positivity)]
      have : (a.num : ℚ)
          * 10 ^ (natClog10 ((a.den + a.num.toNat - 1) / a.num.toNat) - 1)
          < (a.den : ℚ) := by
        rw [← htn]
        exact_mod_cast hlo
      linarith

theorem decExp_unique {x : ℚ} {e f : Int}
    (he1 : (10:ℚ) ^ e ≤ x) (he2 : x < (10:ℚ) ^ (e + 1))
    (hf1 : (10:ℚ) ^ f ≤ x) (hf2 : x < (10:ℚ) ^ (f + 1)) : e = f := by
  by_contra hne
  rcases Int.lt_or_lt_of_ne hne with hlt | hlt
  · have : (10:ℚ) ^ (e + 1) ≤ (10:ℚ) ^ f :=
      zpow_le_zpow_right₀ (by norm_num) (by omega)
    linarith
  · have : (10:ℚ) ^ (f + 1) ≤ (10:ℚ) ^ e :=
      zpow_le_zpow_right₀ (by norm_num) (by omega)
    linarith

theorem toStringDouble_shape {a : Q} (hden : a.den ≠ 0) (hnum : a.num ≠ 0) :
    ∃ m e, toStringDouble a = fmtParts (decide (a.num < 0)) m e
      ∧ 100000 ≤ m ∧ m < 1000000 := by
  unfold toStringDouble
  have h0 : (a.num == 0) = false := beq_eq_false_iff_ne.mpr hnum
  rw [h0]
  simp only [Bool.false_eq_true, if_false]
  have hpden : (qAbs a).den ≠ 0 := hden
  have hppos : 0 < qVal (qAbs a) := by
    rw [qVal_qAbs]
    exact abs_pos.mpr (fun h => hnum ((qVal_eq_zero_iff hden).mp h))
  have hspec := decExp_spec hpden hppos
  have hxden := qMulPow10_den_ne hpden (5 - decExp (qAbs a))
  have hxval := qVal_qMulPow10 hpden (5 - decExp (qAbs a))
  have hxlo : (100000:ℚ) ≤ qVal (qMulPow10 (qAbs a) (5 - decExp (qAbs a))) := by
    rw [hxval]
    have h1 : (10:ℚ) ^ decExp (qAbs a) * (10:ℚ) ^ (5 - decExp (qAbs a))
        = (10:ℚ) ^ (5:Int) := by
      rw [← zpow_add₀ (by norm_num : (10:ℚ) ≠ 0)]
      congr 1
      ring
    calc (100000:ℚ) = (10:ℚ) ^ (5:Int) := by norm_num
      _ = 10 ^ decExp (qAbs a) * 10 ^ (5 - decExp (qAbs a)) := h1.symm
      _ ≤ qVal (qAbs a) * 10 ^ (5 - decExp (qAbs a)) :=
          mul_le_mul_of_nonneg_right hspec.1 (by positivity)
  have hxhi : qVal (qMulPow10 (qAbs a) (5 - decExp (qAbs a))) < (1000000:ℚ) := by
    rw [hxval]
    have h1 : (10:ℚ) ^ (decExp (qAbs a) + 1) * (10:ℚ) ^ (5 - decExp (qAbs a))
        = (10:ℚ) ^ (6:Int) := by
      rw [← zpow_add₀ (by norm_num : (10:ℚ) ≠ 0)]
      congr 1
      ring
    calc qVal (qAbs a) * 10 ^ (5 - decExp (qAbs a))
        < 10 ^ (decExp (qAbs a) + 1) * 10 ^ (5 - decExp (qAbs a)) :=
          mul_lt_mul_of_pos_right hspec.2 (by positivity)
      _ = (10:ℚ) ^ (6:Int) := h1
      _ = (1000000:ℚ) := by norm_num
  have hfl := floorQ_eq_floor hxden
  have hflo : (100000:Int) ≤ floorQ (qMulPow10 (qAbs a) (5 - decExp (qAbs a))) := by
    rw [hfl]
    exact Int.le_floor.mpr (by exact_mod_cast hxlo)
  have hfhi : floorQ (qMulPow10 (qAbs a) (5 - decExp (qAbs a))) < (1000000:Int) := by
    rw [hfl]
    exact Int.floor_lt.mpr (by exact_mod_cast hxhi)
  have hrb := rne_bounds (a := qMulPow10 (qAbs a) (5 - decExp (qAbs a)))
  by_cases hm6 : (rne (qMulPow10 (qAbs a) (5 - decExp (qAbs a))) == 1000000) = true
  · rw [hm6]
    simp only [if_true]
    exact ⟨(100000:Int).toNat, decExp (qAbs a) + 1, rfl, by norm_num, by norm_num⟩
  · have hm6f : (rne (qMulPow10 (qAbs a) (5 - decExp (qAbs a))) == 1000000) = false := by
      simpa using hm6
    rw [hm6f]
    simp only [Bool.false_eq_true, if_false]
    have hm6ne : rne (qMulPow10 (qAbs a) (5 - decExp (qAbs a))) ≠ 1000000 :=
      beq_eq_false_iff_ne.mp hm6f
    refine ⟨(rne (qMulPow10 (qAbs a) (5 - decExp (qAbs a)))).toNat, decExp (qAbs a),
      rfl, ?_, ?_⟩
    · omega
    · omega

/-! Claim C9, part 2: values and shapes of rendered digit strings. -/

theorem digitVal_toDigitChar {d : Nat} (h : d < 10) : digitVal (toDigitChar d) = d := by
  interval_cases d <;> decide

theorem digitsVal_foldl (base init : Nat) (l : List Char) :
    l.foldl (fun a c => a * base + digitVal c) init
      = init * base ^ l.length + digitsVal base l := by
  induction l generalizing init with
  | nil => simp [digitsVal]
  | cons c t ih =>
    have hl : digitsVal base (c :: t)
        = List.foldl (fun a c => a * base + digitVal c) (0 * base + digitVal c) t := rfl
    rw [List.foldl_cons, ih, hl, ih]
    simp only [List.length_cons]
    ring

theorem digitsVal_append (base : Nat) (l1 l2 : List Char) :
    digitsVal base (l1 ++ l2)
      = digitsVal base l1 * base ^ l2.length + digitsVal base l2 := by
  unfold digitsVal
  rw [List.foldl_append]
  exact digitsVal_foldl base _ l2

theorem digitsVal_replicate_zero (z : Nat) :
    digitsVal 10 (List.replicate z '0') = 0 := by
  induction z with
  | zero => rfl
  | succ z ih =>
    rw [List.replicate_succ]
    unfold digitsVal at ih ⊢
    rw [List.foldl_cons]
    simpa using ih

theorem digitsFixed_length (k m : Nat) : (digitsFixed k m).length = k := by
  induction k generalizing m with
  | zero => rfl
  | succ k ih =>
    unfold digitsFixed
    simp [ih]

theorem digitsFixed_all (k m : Nat) : ∀ c ∈ digitsFixed k m, isDigitC c = true := by
  induction k generalizing m with
  | zero => simp [digitsFixed]
  | succ k ih =>
    intro c hc
    unfold digitsFixed at hc
    rcases List.mem_append.mp hc with h | h
    · exact ih _ c h
    · simp at h
      rw [h]
      exact isDigitC_toDigitChar (Nat.mod_lt _ (by omega))

theorem digitsVal_digitsFixed (k m : Nat) :
    digitsVal 10 (digitsFixed k m) = m % 10 ^ k := by
  induction k generalizing m with
  | zero => simp [digitsFixed, digitsVal, Nat.mod_one]
  | succ k ih =>
    unfold digitsFixed
    rw [digitsVal_append, ih]
    have h1 : digitsVal 10 [toDigitChar (m % 10)] = m % 10 := by
      unfold digitsVal
      simp [digitVal_toDigitChar (Nat.mod_lt m (by omega))]
    rw [h1]
    simp only [List.length_singleton, pow_one]
    have h2 : m % 10 ^ (k + 1) = m % 10 + 10 * (m / 10 % 10 ^ k) := by
      rw [show (10:Nat) ^ (k + 1) = 10 * 10 ^ k by ring]
      exact Nat.mod_mul
    omega

theorem digitsFixed_split (a b m : Nat) :
    digitsFixed (a + b) m = digitsFixed a (m / 10 ^ b) ++ digitsFixed b m := by
  induction b generalizing m with
  | zero => simp [digitsFixed]
  | succ b ih =>
    have h1 : a + (b + 1) = (a + b) + 1 := by ring
    rw [h1]
    have h2 : m / 10 / 10 ^ b = m / 10 ^ (b + 1) := by
      rw [Nat.div_div_eq_div_mul]
      congr 1
      rw [Nat.pow_succ]
      ring
    calc digitsFixed ((a + b) + 1) m
        = digitsFixed (a + b) (m / 10) ++ [toDigitChar (m % 10)] := rfl
      _ = (digitsFixed a (m / 10 / 10 ^ b) ++ digitsFixed b (m / 10))
            ++ [toDigitChar (m % 10)] := by rw [ih]
      _ = digitsFixed a (m / 10 ^ (b + 1))
            ++ (digitsFixed b (m / 10) ++ [toDigitChar (m % 10)]) := by
          rw [h2, List.append_assoc]
      _ = digitsFixed a (m / 10 ^ (b + 1)) ++ digitsFixed (b + 1) m := rfl

theorem digitsVal_natDigitsF : ∀ fuel n, n ≤ fuel →
    digitsVal 10 (natDigitsF fuel n) = n := by
  intro fuel
  induction fuel with
  | zero =>
    intro n h
    have : n = 0 := by omega
    subst this
    rfl
  | succ fuel ih =>
    intro n h
    unfold natDigitsF
    by_cases hn : n < 10
    · rw [if_pos hn]
      unfold digitsVal
      simp [digitVal_toDigitChar hn]
    · rw [if_neg hn]
      rw [digitsVal_append, ih (n / 10) (by omega)]
      have h1 : digitsVal 10 [toDigitChar (n % 10)] = n % 10 := by
        unfold digitsVal
        simp [digitVal_toDigitChar (Nat.mod_lt n (by omega))]
      rw [h1]
      simp only [List.length_singleton, pow_one]
      omega

theorem digitsVal_natDigits (n : Nat) : digitsVal 10 (natDigits n) = n :=
  digitsVal_natDigitsF (n + 1) n (by omega)

theorem digitsVal_expDigits (n : Nat) : digitsVal 10 (expDigits n) = n := by
  unfold expDigits
  by_cases h : n < 10
  · rw [if_pos h]
    unfold digitsVal
    simp only [List.foldl_cons, List.foldl_nil]
    rw [digitVal_toDigitChar h]
    have hz : digitVal (Char.ofNat 48) = 0 := by decide
    simp [hz]
  · rw [if_neg h]
    exact digitsVal_natDigits n

theorem expDigits_all {n : Nat} : ∀ c ∈ expDigits n, isDigitC c = true := by
  unfold expDigits
  by_cases h : n < 10
  · rw [if_pos h]
    intro c hc
    simp at hc
    rcases hc with hc | hc
    · rw [hc]; decide
    · rw [hc]; exact isDigitC_toDigitChar h
  · rw [if_neg h]
    exact natDigits_all

theorem expDigits_ne_nil (n : Nat) : expDigits n ≠ [] := by
  unfold expDigits
  by_cases h : n < 10
  · rw [if_pos h]
    simp
  · rw [if_neg h]
    exact natDigits_ne_nil n

theorem stripZeros_decomp (l : List Char) :
    l = stripZeros l ++ List.replicate (l.reverse.takeWhile (fun c => c == '0')).length '0' := by
  unfold stripZeros
  have h := (List.takeWhile_append_dropWhile (fun c => c == '0') l.reverse).symm
  have h2 : (l.reverse.takeWhile (fun c => c == '0')).reverse
      = List.replicate (l.reverse.takeWhile (fun c => c == '0')).length '0' := by
    rw [List.eq_replicate_iff]
    constructor
    · simp
    · intro b hb
      rw [List.mem_reverse] at hb
      have := List.mem_takeWhile_imp hb
      simpa using this
  conv_lhs => rw [← List.reverse_reverse l, h]
  rw [List.reverse_append, h2]

theorem stripZeros_ne_nil {l : List Char} (h : digitsVal 10 l ≠ 0) :
    stripZeros l ≠ [] := by
  intro hc
  have hd := stripZeros_decomp l
  rw [hc, List.nil_append] at hd
  rw [hd, digitsVal_replicate_zero] at h
  exact h rfl

theorem stripZeros_mem {l : List Char} {c : Char} (h : c ∈ stripZeros l) : c ∈ l := by
  have hd := stripZeros_decomp l
  rw [hd]
  exact List.mem_append.mpr (Or.inl h)

/-! Claim C9, part 3: the stream parser over the formatter's output. -/

theorem digit_bne {c x : Char} (h : isDigitC c = true) (hx : isDigitC x = false) :
    (c == x) = false := by
  apply beq_eq_false_iff_ne.mpr
  intro he
  rw [he, hx] at h
  exact Bool.false_ne_true h

theorem digit_not_space {c : Char} (h : isDigitC c = true) : isSpaceC c = false := by
  unfold isSpaceC
  rw [digit_bne h (by decide), digit_bne h (by decide), digit_bne h (by decide),
    digit_bne h (by decide), digit_bne h (by decide), digit_bne h (by decide)]
  rfl

theorem readSign_digit {c : Char} (h : isDigitC c = true) (r : List Char) :
    readSign (c :: r) = (false, c :: r) := by
  show (if c == '-' then ((true : Bool), r)
        else if c == '+' then ((false : Bool), r) else (false, c :: r)) = (false, c :: r)
  rw [digit_bne h (by decide), digit_bne h (by decide)]
  simp

theorem dropWhile_of_head_false {p : Char → Bool} {l : List Char}
    (h : p (l.headD nullChar) = false) : l.dropWhile p = l := by
  cases l with
  | nil => rfl
  | cons a t =>
    rw [List.dropWhile_cons]
    simp only [List.headD_cons] at h
    rw [h]
    simp

theorem takeWhile_append_of_all {p : Char → Bool} {d r : List Char}
    (hd : ∀ c ∈ d, p c = true) :
    (d ++ r).takeWhile p = d ++ r.takeWhile p
    ∧ (d ++ r).dropWhile p = r.dropWhile p := by
  induction d with
  | nil => simp
  | cons a t ih =>
    have ha : p a = true := hd a (by simp)
    have ht : ∀ c ∈ t, p c = true := fun c hc => hd c (by simp [hc])
    simp only [List.cons_append, List.takeWhile_cons, List.dropWhile_cons, ha, if_true]
    constructor
    · simp [(ih ht).1]
    · simpa using (ih ht).2

theorem takeWhile_of_head_false {p : Char → Bool} {r : List Char}
    (h : p (r.headD nullChar) = false) : r.takeWhile p = [] ∧ r.dropWhile p = r := by
  cases r with
  | nil => simp
  | cons a t =>
    simp only [List.headD_cons] at h
    rw [List.takeWhile_cons, List.dropWhile_cons, h]
    simp

theorem takeWhile_of_all {p : Char → Bool} {d : List Char} (hd : ∀ c ∈ d, p c = true) :
    d.takeWhile p = d := by
  have := (takeWhile_append_of_all (r := []) hd).1
  simpa using this

theorem renderExpPart_head_not_digit (ex : Option (Bool × List Char)) :
    isDigitC ((renderExpPart ex).headD nullChar) = false := by
  rcases ex with _ | ⟨es, ed⟩
  · decide
  · unfold renderExpPart
    simp only [List.headD_cons]
    decide

theorem renderTail_head_not_digit (fp : List Char) (ex : Option (Bool × List Char)) :
    isDigitC ((renderTail fp ex).headD nullChar) = false := by
  unfold renderTail
  by_cases hfp : fp.isEmpty
  · rw [if_pos hfp]
    rw [List.nil_append]
    exact renderExpPart_head_not_digit ex
  · rw [if_neg hfp]
    simp only [List.cons_append, List.headD_cons]
    decide

theorem scanFloat_render (neg : Bool) (ip fp : List Char) (ex : Option (Bool × List Char))
    (hip : ∀ c ∈ ip, isDigitC c = true) (hip0 : ip ≠ [])
    (hfp : ∀ c ∈ fp, isDigitC c = true)
    (hed : ∀ c ∈ exDigits ex, isDigitC c = true) :
    scanFloat (render neg ip fp ex)
      = ⟨neg, ip, fp, ex.isSome, exNeg ex, exDigits ex⟩ := by
  rcases ip with _ | ⟨i0, ipt⟩
  · exact absurd rfl hip0
  have hi0 : isDigitC i0 = true := hip i0 (by simp)
  have hbody : render neg (i0 :: ipt) fp ex
      = (if neg then ['-'] else []) ++ (i0 :: ipt) ++ renderTail fp ex := by
    unfold render renderTail
    rw [List.append_assoc]
  have hscan2 : ∀ l : List Char, l = (i0 :: ipt) ++ renderTail fp ex →
      (l.takeWhile isDigitC = i0 :: ipt ∧ l.dropWhile isDigitC = renderTail fp ex) := by
    intro l hl
    subst hl
    have h1 := takeWhile_append_of_all (r := renderTail fp ex) hip
    have h2 := takeWhile_of_head_false (renderTail_head_not_digit fp ex)
    rw [h2.1] at h1
    rw [h2.2] at h1
    exact ⟨by simpa using h1.1, h1.2⟩
  have hfrac : scanFrac (renderTail fp ex) = (fp, renderExpPart ex) := by
    unfold renderTail
    by_cases hfpe : fp.isEmpty
    · rw [if_pos hfpe]
      have hfpnil : fp = [] := by
        rcases fp with _ | _
        · rfl
        · simp at hfpe
      subst hfpnil
      rw [List.nil_append]
      rcases ex with _ | ⟨es, ed⟩
      · rfl
      · rfl
    · rw [if_neg hfpe]
      rw [List.cons_append]
      have h1 := takeWhile_append_of_all (r := renderExpPart ex) hfp
      have h2 := takeWhile_of_head_false (renderExpPart_head_not_digit ex)
      rw [h2.1] at h1
      rw [h2.2] at h1
      have hsf : scanFrac ('.' :: (fp ++ renderExpPart ex))
          = ((fp ++ renderExpPart ex).takeWhile isDigitC,
             (fp ++ renderExpPart ex).dropWhile isDigitC) := rfl
      rw [hsf, h1.1, h1.2, List.append_nil]
  have hexp : scanExp (renderExpPart ex) = (ex.isSome, exNeg ex, exDigits ex) := by
    rcases ex with _ | ⟨es, ed⟩
    · rfl
    · have hedd : ∀ c ∈ ed, isDigitC c = true := hed
      cases es
      · have e1 : renderExpPart (some (false, ed)) = 'e' :: '+' :: ed := rfl
        rw [e1]
        have e2 : scanExp ('e' :: '+' :: ed) = (true, false, ed.takeWhile isDigitC) := rfl
        rw [e2, takeWhile_of_all hedd]
        rfl
      · have e1 : renderExpPart (some (true, ed)) = 'e' :: '-' :: ed := rfl
        rw [e1]
        have e2 : scanExp ('e' :: '-' :: ed) = (true, true, ed.takeWhile isDigitC) := rfl
        rw [e2, takeWhile_of_all hedd]
        rfl
  have hmain : ∀ l : List Char, l = (i0 :: ipt) ++ renderTail fp ex →
      (l.takeWhile isDigitC = i0 :: ipt
        ∧ scanFrac (l.dropWhile isDigitC) = (fp, renderExpPart ex)) := by
    intro l hl
    refine ⟨(hscan2 l hl).1, ?_⟩
    rw [(hscan2 l hl).2, hfrac]
  cases neg
  · rw [hbody]
    simp only [Bool.false_eq_true, if_false, List.nil_append, List.cons_append]
    unfold scanFloat
    rw [dropWhile_of_head_false (by
      simp only [List.headD_cons]
      exact digit_not_space hi0)]
    dsimp only
    rw [readSign_digit hi0]
    dsimp only
    have hm := hmain (i0 :: (ipt ++ renderTail fp ex)) (by simp)
    rw [hm.1, hm.2]
    dsimp only
    rw [hexp]
  · rw [hbody]
    have hc : ((if true then ['-'] else ([] : List Char)) ++ (i0 :: ipt))
        ++ renderTail fp ex
        = '-' :: (i0 :: (ipt ++ renderTail fp ex)) := by simp
    rw [hc]
    unfold scanFloat
    rw [dropWhile_of_head_false (by
      simp only [List.headD_cons]
      decide)]
    dsimp only
    have hrs : readSign ('-' :: (i0 :: (ipt ++ renderTail fp ex)))
        = (true, i0 :: (ipt ++ renderTail fp ex)) := rfl
    rw [hrs]
    dsimp only
    have hm := hmain (i0 :: (ipt ++ renderTail fp ex)) (by simp)
    rw [hm.1, hm.2]
    dsimp only
    rw [hexp]

theorem qVal_floatScanMant (f : FloatScan) :
    qVal (floatScanMant f)
      = (if f.neg then (-1:ℚ) else 1) * (digitsVal 10 (f.ip ++ f.fp) : ℚ)
        / (10:ℚ) ^ f.fp.length := by
  unfold qVal floatScanMant
  dsimp only
  by_cases hn : f.neg = true
  · rw [if_pos hn, if_pos hn]
    push_cast
    ring
  · rw [if_neg hn, if_neg hn]
    push_cast
    ring

theorem floatScanMant_den_ne (f : FloatScan) : (floatScanMant f).den ≠ 0 := by
  unfold floatScanMant
  dsimp only
  positivity

theorem istreamDouble_render_val (neg : Bool) (ip fp : List Char)
    (ex : Option (Bool × List Char))
    (hip : ∀ c ∈ ip, isDigitC c = true) (hip0 : ip ≠ [])
    (hfp : ∀ c ∈ fp, isDigitC c = true)
    (hed : ∀ c ∈ exDigits ex, isDigitC c = true)
    (hedne : ex.isSome = true → exDigits ex ≠ []) :
    (istreamDouble (render neg ip fp ex)).den ≠ 0
    ∧ qVal (istreamDouble (render neg ip fp ex))
      = (if neg then (-1:ℚ) else 1) * (digitsVal 10 (ip ++ fp) : ℚ) / (10:ℚ) ^ fp.length
        * (10:ℚ) ^ (if exNeg ex then -(digitsVal 10 (exDigits ex) : Int)
                    else (digitsVal 10 (exDigits ex) : Int)) := by
  unfold istreamDouble
  rw [scanFloat_render neg ip fp ex hip hip0 hfp hed]
  dsimp only
  have hipne : ip.isEmpty = false := by
    rcases ip with _ | _
    · exact absurd rfl hip0
    · rfl
  rw [if_neg (show ¬((ip.isEmpty && fp.isEmpty) = true) by rw [hipne]; simp)]
  rcases ex with _ | ⟨es, ed⟩
  · dsimp only [Option.isSome, exNeg, exDigits]
    rw [if_neg (show ¬((false && List.isEmpty ([] : List Char)) = true) by simp)]
    rw [if_pos (show (List.isEmpty ([] : List Char)) = true from rfl)]
    constructor
    · exact floatScanMant_den_ne _
    · rw [qVal_floatScanMant]
      dsimp only
      rw [show digitsVal 10 ([] : List Char) = 0 from rfl]
      simp
  · have hedne2 : ed ≠ [] := hedne rfl
    have hedE : ed.isEmpty = false := by
      rcases ed with _ | _
      · exact absurd rfl hedne2
      · rfl
    dsimp only [Option.isSome, exNeg, exDigits]
    rw [if_neg (show ¬((true && ed.isEmpty) = true) by rw [hedE]; simp)]
    rw [if_neg (show ¬(ed.isEmpty = true) by rw [hedE]; simp)]
    constructor
    · exact qMulPow10_den_ne (floatScanMant_den_ne _) _
    · rw [qVal_qMulPow10 (floatScanMant_den_ne _), qVal_floatScanMant]
      unfold floatScanExp
      dsimp only

/-! Claim C9, part 4: the three output shapes of `fmtParts` as `render`
instances, and the mantissa value of a split digit string. -/

theorem fmtParts_sci (neg : Bool) (m : Nat) (e : Int) (h : e < -4 ∨ 6 ≤ e) :
    fmtParts neg m e
      = render neg ((digitsFixed 6 m).take 1) (stripZeros (digitsFixed 6 m).tail)
          (some (decide (e < 0), expDigits e.natAbs)) := by
  unfold fmtParts render renderExpPart
  dsimp only
  rw [if_pos (show (decide (e < -4) || decide (6 ≤ e)) = true by
    rcases h with h | h
    · simp [h]
    · simp [h])]
  by_cases hneg : neg = true
  · rw [if_pos hneg, if_pos hneg]
    by_cases he0 : e < 0
    · rw [if_pos he0, if_pos (show decide (e < 0) = true by simp [he0])]
      simp [List.append_assoc]
    · rw [if_neg he0, if_neg (show ¬decide (e < 0) = true by simp [he0])]
      simp [List.append_assoc]
  · rw [if_neg hneg, if_neg hneg]
    by_cases he0 : e < 0
    · rw [if_pos he0, if_pos (show decide (e < 0) = true by simp [he0])]
      simp [List.append_assoc]
    · rw [if_neg he0, if_neg (show ¬decide (e < 0) = true by simp [he0])]
      simp [List.append_assoc]

theorem fmtParts_fixed_nonneg (neg : Bool) (m : Nat) (e : Int)
    (h1 : ¬(e < -4 ∨ 6 ≤ e)) (h2 : 0 ≤ e) :
    fmtParts neg m e
      = render neg ((digitsFixed 6 m).take (e.toNat + 1))
          (stripZeros ((digitsFixed 6 m).drop (e.toNat + 1))) none := by
  unfold fmtParts render renderExpPart
  dsimp only
  rw [if_neg (show ¬(decide (e < -4) || decide (6 ≤ e)) = true by
    simp only [Bool.or_eq_true, decide_eq_true_eq]
    omega)]
  rw [if_pos (show (0:Int) ≤ e from h2)]
  by_cases hneg : neg = true
  · rw [if_pos hneg, if_pos hneg]
    simp [List.append_assoc]
  · rw [if_neg hneg, if_neg hneg]
    simp [List.append_assoc]

theorem fmtParts_fixed_neg (neg : Bool) (m : Nat) (e : Int)
    (h1 : ¬(e < -4 ∨ 6 ≤ e)) (h2 : ¬(0:Int) ≤ e)
    (hne : stripZeros (digitsFixed 6 m) ≠ []) :
    fmtParts neg m e
      = render neg ['0']
          (List.replicate (e.natAbs - 1) '0' ++ stripZeros (digitsFixed 6 m)) none := by
  unfold fmtParts render renderExpPart
  dsimp only
  rw [if_neg (show ¬(decide (e < -4) || decide (6 ≤ e)) = true by
    simp only [Bool.or_eq_true, decide_eq_true_eq]
    omega)]
  rw [if_neg h2]
  have hfpne : (List.replicate (e.natAbs - 1) '0'
      ++ stripZeros (digitsFixed 6 m)).isEmpty = false := by
    rcases hrep : List.replicate (e.natAbs - 1) '0' ++ stripZeros (digitsFixed 6 m)
        with _ | ⟨c, t⟩
    · rcases List.append_eq_nil.mp hrep with ⟨_, hs⟩
      exact absurd hs hne
    · rfl
  rw [hfpne]
  by_cases hneg : neg = true
  · rw [if_pos hneg, if_pos hneg]
    simp
  · rw [if_neg hneg, if_neg hneg]
    simp

theorem mant_div {m : Nat} (k : Nat) (hk1 : 1 ≤ k) (hk6 : k ≤ 6) (h6 : m < 1000000) :
    (digitsVal 10 ((digitsFixed 6 m).take k
        ++ stripZeros ((digitsFixed 6 m).drop k)) : ℚ)
      / (10:ℚ) ^ (stripZeros ((digitsFixed 6 m).drop k)).length
    = (m : ℚ) / (10:ℚ) ^ ((6 - k : Nat)) := by
  have hdlen : (digitsFixed 6 m).length = 6 := digitsFixed_length 6 m
  have hdv : digitsVal 10 (digitsFixed 6 m) = m := by
    rw [digitsVal_digitsFixed]
    exact Nat.mod_eq_of_lt (by norm_num; omega)
  have hsplit0 : (digitsFixed 6 m).take k ++ (digitsFixed 6 m).drop k
      = digitsFixed 6 m := List.take_append_drop k _
  have hm : digitsVal 10 ((digitsFixed 6 m).take k) * 10 ^ ((digitsFixed 6 m).drop k).length
      + digitsVal 10 ((digitsFixed 6 m).drop k) = m := by
    rw [← digitsVal_append, hsplit0, hdv]
  have hdroplen : ((digitsFixed 6 m).drop k).length = 6 - k := by
    rw [List.length_drop, hdlen]
  have hstrip := stripZeros_decomp ((digitsFixed 6 m).drop k)
  have hdvtop : digitsVal 10 ((digitsFixed 6 m).take k
      ++ stripZeros ((digitsFixed 6 m).drop k))
      = digitsVal 10 ((digitsFixed 6 m).take k)
        * 10 ^ (stripZeros ((digitsFixed 6 m).drop k)).length
        + digitsVal 10 (stripZeros ((digitsFixed 6 m).drop k)) :=
    digitsVal_append 10 _ _
  have hlens : 6 - k = (stripZeros ((digitsFixed 6 m).drop k)).length
      + (((digitsFixed 6 m).drop k).reverse.takeWhile (fun c => c == '0')).length := by
    rw [← hdroplen]
    conv_lhs => rw [hstrip]
    simp
  have hdvdrop : digitsVal 10 ((digitsFixed 6 m).drop k)
      = digitsVal 10 (stripZeros ((digitsFixed 6 m).drop k))
        * 10 ^ (((digitsFixed 6 m).drop k).reverse.takeWhile (fun c => c == '0')).length := by
    conv_lhs => rw [hstrip]
    rw [digitsVal_append, digitsVal_replicate_zero, List.length_replicate]
    omega
  set T := digitsVal 10 ((digitsFixed 6 m).take k) with hT
  set S := (stripZeros ((digitsFixed 6 m).drop k)).length with hS
  set Z := (((digitsFixed 6 m).drop k).reverse.takeWhile (fun c => c == '0')).length with hZ
  set V := digitsVal 10 (stripZeros ((digitsFixed 6 m).drop k)) with hV
  rw [hdroplen, hdvdrop] at hm
  have hnat : (T * 10 ^ S + V) * 10 ^ (6 - k) = m * 10 ^ S := by
    rw [← hm, hlens]
    ring
  rw [hdvtop]
  rw [div_eq_div_iff (by positivity) (by positivity)]
  push_cast
  exact_mod_cast hnat

/-! Claim C9, part 5: parsing a formatted mantissa/exponent pair recovers
its exact value. -/

theorem zpow_shift (C x : ℚ) (n : Nat) (e : Int) (hrel : (n:Int) = 5 - e) :
    C * x / (10:ℚ) ^ n = C * x * (10:ℚ) ^ (e - 5) := by
  rw [div_eq_mul_inv, show ((10:ℚ) ^ n) = (10:ℚ) ^ ((n:Int)) from (zpow_natCast 10 n).symm,
    hrel, ← zpow_neg, show -(5 - e) = e - 5 by ring]

theorem parse_fmtParts (neg : Bool) (m : Nat) (e : Int)
    (h5 : 100000 ≤ m) (h6 : m < 1000000) :
    (istreamDouble (fmtParts neg m e)).den ≠ 0
    ∧ qVal (istreamDouble (fmtParts neg m e))
      = (if neg then (-1:ℚ) else 1) * m * (10:ℚ) ^ (e - 5) := by
  have hall : ∀ c ∈ digitsFixed 6 m, isDigitC c = true := digitsFixed_all 6 m
  have hdlen : (digitsFixed 6 m).length = 6 := digitsFixed_length 6 m
  have hdvD : digitsVal 10 (digitsFixed 6 m) = m := by
    rw [digitsVal_digitsFixed]
    exact Nat.mod_eq_of_lt (by norm_num; omega)
  by_cases hsci : e < -4 ∨ 6 ≤ e
  · rw [fmtParts_sci neg m e hsci]
    have htake1 : ((digitsFixed 6 m).take 1).length = 1 := by
      rw [List.length_take, hdlen]
      decide
    have hres := istreamDouble_render_val neg ((digitsFixed 6 m).take 1)
      (stripZeros (digitsFixed 6 m).tail)
      (some (decide (e < 0), expDigits e.natAbs))
      (fun c hc => hall c (List.mem_of_mem_take hc))
      (fun hc => by rw [hc] at htake1; simp at htake1)
      (fun c hc => hall c (List.mem_of_mem_tail (stripZeros_mem hc)))
      (fun c hc => expDigits_all c hc)
      (fun _ => expDigits_ne_nil _)
    refine ⟨hres.1, ?_⟩
    rw [hres.2]
    have hexpv : (if exNeg (some (decide (e < 0), expDigits e.natAbs)) then
          -(digitsVal 10 (exDigits (some (decide (e < 0), expDigits e.natAbs))) : Int)
        else (digitsVal 10 (exDigits (some (decide (e < 0), expDigits e.natAbs))) : Int))
        = e := by
      show (if decide (e < 0) = true then -(digitsVal 10 (expDigits e.natAbs) : Int)
        else (digitsVal 10 (expDigits e.natAbs) : Int)) = e
      rw [digitsVal_expDigits]
      by_cases he : e < 0
      · rw [if_pos (by simp [he])]
        omega
      · rw [if_neg (by simp [he])]
        omega
    rw [hexpv]
    have hm1 : (digitsVal 10 ((digitsFixed 6 m).take 1
          ++ stripZeros (digitsFixed 6 m).tail) : ℚ)
        / (10:ℚ) ^ (stripZeros (digitsFixed 6 m).tail).length
        = (m : ℚ) / (10:ℚ) ^ ((5:Nat)) := by
      have := mant_div (m := m) 1 (by norm_num) (by norm_num) h6
      rw [List.drop_one] at this
      exact this
    calc (if neg then (-1:ℚ) else 1)
          * (digitsVal 10 ((digitsFixed 6 m).take 1
              ++ stripZeros (digitsFixed 6 m).tail) : ℚ)
          / (10:ℚ) ^ (stripZeros (digitsFixed 6 m).tail).length * (10:ℚ) ^ e
        = (if neg then (-1:ℚ) else 1)
          * ((digitsVal 10 ((digitsFixed 6 m).take 1
              ++ stripZeros (digitsFixed 6 m).tail) : ℚ)
            / (10:ℚ) ^ (stripZeros (digitsFixed 6 m).tail).length) * (10:ℚ) ^ e := by
          ring
      _ = (if neg then (-1:ℚ) else 1) * ((m : ℚ) / (10:ℚ) ^ ((5:Nat))) * (10:ℚ) ^ e := by
          rw [hm1]
      _ = (if neg then (-1:ℚ) else 1) * (m : ℚ) * (10:ℚ) ^ (e - 5) := by
          rw [div_eq_mul_inv,
            show ((10:ℚ) ^ ((5:Nat))) = (10:ℚ) ^ ((5:Int)) from (zpow_natCast 10 5).symm,
            ← zpow_neg]
          rw [show (10:ℚ) ^ (e - 5) = (10:ℚ) ^ ((-5:Int)) * (10:ℚ) ^ e by
            rw [← zpow_add₀ (by norm_num : (10:ℚ) ≠ 0)]
            congr 1
            ring]
          ring
  · by_cases hnn : (0:Int) ≤ e
    · have he5 : e ≤ 5 := by omega
      have hk1 : 1 ≤ e.toNat + 1 := by omega
      have hk6 : e.toNat + 1 ≤ 6 := by omega
      rw [fmtParts_fixed_nonneg neg m e hsci hnn]
      have htake : ((digitsFixed 6 m).take (e.toNat + 1)).length = e.toNat + 1 := by
        rw [List.length_take, hdlen]
        omega
      have hres := istreamDouble_render_val neg ((digitsFixed 6 m).take (e.toNat + 1))
        (stripZeros ((digitsFixed 6 m).drop (e.toNat + 1))) none
        (fun c hc => hall c (List.mem_of_mem_take hc))
        (fun hc => by rw [hc] at htake; simp at htake)
        (fun c hc => hall c (List.mem_of_mem_drop (stripZeros_mem hc)))
        (fun c hc => by simp [exDigits] at hc)
        (fun hc => by simp at hc)
      refine ⟨hres.1, ?_⟩
      rw [hres.2]
      have hexpv : (if exNeg (none : Option (Bool × List Char)) then
            -(digitsVal 10 (exDigits (none : Option (Bool × List Char))) : Int)
          else (digitsVal 10 (exDigits (none : Option (Bool × List Char))) : Int))
          = (0:Int) := rfl
      rw [hexpv, zpow_zero, mul_one]
      have hm1 := mant_div (m := m) (e.toNat + 1) hk1 hk6 h6
      calc (if neg then (-1:ℚ) else 1)
            * (digitsVal 10 ((digitsFixed 6 m).take (e.toNat + 1)
                ++ stripZeros ((digitsFixed 6 m).drop (e.toNat + 1))) : ℚ)
            / (10:ℚ) ^ (stripZeros ((digitsFixed 6 m).drop (e.toNat + 1))).length
          = (if neg then (-1:ℚ) else 1)
            * ((digitsVal 10 ((digitsFixed 6 m).take (e.toNat + 1)
                ++ stripZeros ((digitsFixed 6 m).drop (e.toNat + 1))) : ℚ)
              / (10:ℚ) ^ (stripZeros ((digitsFixed 6 m).drop (e.toNat + 1))).length) := by
            ring
        _ = (if neg then (-1:ℚ) else 1) * ((m : ℚ) / (10:ℚ) ^ ((6 - (e.toNat + 1) : Nat))) := by
            rw [hm1]
        _ = (if neg then (-1:ℚ) else 1) * (m : ℚ) * (10:ℚ) ^ (e - 5) := by
            rw [← mul_div_assoc]
            exact zpow_shift _ _ _ e (by omega)
    · have hne : stripZeros (digitsFixed 6 m) ≠ [] := by
        apply stripZeros_ne_nil
        rw [hdvD]
        omega
      rw [fmtParts_fixed_neg neg m e hsci hnn hne]
      have hres := istreamDouble_render_val neg ['0']
        (List.replicate (e.natAbs - 1) '0' ++ stripZeros (digitsFixed 6 m)) none
        (fun c hc => by simp at hc; rw [hc]; decide)
        (by simp)
        (fun c hc => by
          rcases List.mem_append.mp hc with h | h
          · rw [List.eq_of_mem_replicate h]
            decide
          · exact hall c (stripZeros_mem h))
        (fun c hc => by simp [exDigits] at hc)
        (fun hc => by simp at hc)
      refine ⟨hres.1, ?_⟩
      rw [hres.2]
      have hexpv : (if exNeg (none : Option (Bool × List Char)) then
            -(digitsVal 10 (exDigits (none : Option (Bool × List Char))) : Int)
          else (digitsVal 10 (exDigits (none : Option (Bool × List Char))) : Int))
          = (0:Int) := rfl
      rw [hexpv, zpow_zero, mul_one]
      have hstrip := stripZeros_decomp (digitsFixed 6 m)
      have hzdef : (stripZeros (digitsFixed 6 m)).length
          + ((digitsFixed 6 m).reverse.takeWhile (fun c => c == '0')).length = 6 := by
        conv_rhs => rw [← hdlen]
        conv_rhs => rw [hstrip]
        simp
      have hmz : digitsVal 10 (stripZeros (digitsFixed 6 m))
          * 10 ^ ((digitsFixed 6 m).reverse.takeWhile (fun c => c == '0')).length = m := by
        conv_rhs => rw [← hdvD]
        conv_rhs => rw [hstrip]
        rw [digitsVal_append, digitsVal_replicate_zero, List.length_replicate]
        omega
      have hdv0 : digitsVal 10 (['0']
          ++ (List.replicate (e.natAbs - 1) '0' ++ stripZeros (digitsFixed 6 m)))
          = digitsVal 10 (stripZeros (digitsFixed 6 m)) := by
        rw [digitsVal_append, digitsVal_append, digitsVal_replicate_zero]
        have hz : digitsVal 10 ['0'] = 0 := rfl
        rw [hz]
        ring
      rw [hdv0]
      have hlenfp : (List.replicate (e.natAbs - 1) '0'
          ++ stripZeros (digitsFixed 6 m)).length
          = (e.natAbs - 1) + (stripZeros (digitsFixed 6 m)).length := by
        simp
      rw [hlenfp]
      have hdvQ : (digitsVal 10 (stripZeros (digitsFixed 6 m)) : ℚ)
          = (m : ℚ) / (10:ℚ)
            ^ ((digitsFixed 6 m).reverse.takeWhile (fun c => c == '0')).length := by
        rw [eq_div_iff (by positivity)]
        exact_mod_cast hmz
      rw [hdvQ]
      have hcomb : (m : ℚ) / (10:ℚ)
            ^ ((digitsFixed 6 m).reverse.takeWhile (fun c => c == '0')).length
          / (10:ℚ) ^ ((e.natAbs - 1) + (stripZeros (digitsFixed 6 m)).length)
          = (m : ℚ) / (10:ℚ) ^ ((5 - e).toNat) := by
        have hexp2 : ((digitsFixed 6 m).reverse.takeWhile (fun c => c == '0')).length
            + ((e.natAbs - 1) + (stripZeros (digitsFixed 6 m)).length)
            = (5 - e).toNat := by
          omega
        rw [div_div, ← pow_add, hexp2]
      calc (if neg then (-1:ℚ) else 1) * ((m : ℚ) / (10:ℚ)
              ^ ((digitsFixed 6 m).reverse.takeWhile (fun c => c == '0')).length)
            / (10:ℚ) ^ ((e.natAbs - 1) + (stripZeros (digitsFixed 6 m)).length)
          = (if neg then (-1:ℚ) else 1) * ((m : ℚ) / (10:ℚ)
              ^ ((digitsFixed 6 m).reverse.takeWhile (fun c => c == '0')).length
            / (10:ℚ) ^ ((e.natAbs - 1) + (stripZeros (digitsFixed 6 m)).length)) := by
            ring
        _ = (if neg then (-1:ℚ) else 1) * ((m : ℚ) / (10:ℚ) ^ ((5 - e).toNat)) := by
            rw [hcomb]
        _ = (if neg then (-1:ℚ) else 1) * (m : ℚ) * (10:ℚ) ^ (e - 5) := by
            rw [← mul_div_assoc]
            exact zpow_shift _ _ _ e (by omega)

/-! Claim C9, part 6: a formatted nonzero double is neither a hexadecimal
token nor a null spelling, so its re-parse is the generic stream parse. -/

theorem charAt_mem {s : List Char} {n : Nat} (h : n < s.length) : charAt s n ∈ s := by
  have h1 : charAt s n ∈ s.drop n := by
    rw [charAt_lt_len h]
    simp
  exact List.mem_of_mem_drop h1

theorem isHex_false_of_no_x {t : List Char}
    (h : ∀ c ∈ t, c ≠ 'x' ∧ c ≠ 'X') : isHex t = false := by
  by_contra hb
  rw [Bool.not_eq_false] at hb
  obtain ⟨h0, hx, hlen⟩ := isHex_shape hb
  have hmem : charAt t ((if signAt0 t then 1 else 0) + 1) ∈ t := charAt_mem (by omega)
  rcases hx with hx | hx
  · exact (h _ hmem).1 hx
  · exact (h _ hmem).2 hx

theorem render_chars {neg : Bool} {ip fp : List Char} {ex : Option (Bool × List Char)}
    (hip : ∀ c ∈ ip, isDigitC c = true) (hfp : ∀ c ∈ fp, isDigitC c = true)
    (hed : ∀ c ∈ exDigits ex, isDigitC c = true) :
    ∀ c ∈ render neg ip fp ex,
      isDigitC c = true ∨ c = '-' ∨ c = '.' ∨ c = 'e' ∨ c = '+' := by
  intro c hc
  unfold render at hc
  rcases List.mem_append.mp hc with hc1 | hce
  · rcases List.mem_append.mp hc1 with hc2 | hcp
    · rcases List.mem_append.mp hc2 with hcs | hcip
      · rcases hneg : neg with _ | _
        · rw [hneg] at hcs
          simp at hcs
        · rw [hneg] at hcs
          simp at hcs
          right
          left
          exact hcs
      · exact Or.inl (hip c hcip)
    · by_cases hfpe : fp.isEmpty
      · rw [if_pos hfpe] at hcp
        simp at hcp
      · rw [if_neg hfpe] at hcp
        rcases List.mem_cons.mp hcp with hcd | hcd
        · right; right; left; exact hcd
        · exact Or.inl (hfp c hcd)
  · rcases ex with _ | ⟨es, ed⟩
    · simp [renderExpPart] at hce
    · unfold renderExpPart at hce
      rcases List.mem_cons.mp hce with hce1 | hce1
      · right; right; right; left; exact hce1
      · rcases List.mem_cons.mp hce1 with hce2 | hce2
        · cases es
          · simp at hce2
            right; right; right; right; exact hce2
          · simp at hce2
            right; left; exact hce2
        · exact Or.inl (hed c hce2)

theorem toDigitChar_one_nine {d : Nat} (h1 : 1 ≤ d) (h9 : d ≤ 9) :
    '1' ≤ toDigitChar d ∧ toDigitChar d ≤ '9' := by
  interval_cases d <;> exact ⟨by decide, by decide⟩

theorem digitsFixed_head {m : Nat} (h5 : 100000 ≤ m) (h6 : m < 1000000) :
    digitsFixed 6 m = toDigitChar (m / 100000) :: digitsFixed 5 m := by
  have h := digitsFixed_split 1 5 m
  have h15 : (10:Nat) ^ 5 = 100000 := by norm_num
  rw [h15] at h
  have hd1 : digitsFixed 1 (m / 100000) = [toDigitChar (m / 100000 % 10)] := rfl
  have hmod : m / 100000 % 10 = m / 100000 := Nat.mod_eq_of_lt (by omega)
  rw [show (6:Nat) = 1 + 5 from rfl, h, hd1, hmod]
  rfl

theorem mem_render_ip {neg : Bool} {ip fp : List Char} {ex : Option (Bool × List Char)}
    {c : Char} (h : c ∈ ip) : c ∈ render neg ip fp ex := by
  unfold render
  simp only [List.mem_append]
  tauto

theorem mem_render_fp {neg : Bool} {ip fp : List Char} {ex : Option (Bool × List Char)}
    {c : Char} (h : c ∈ fp) : c ∈ render neg ip fp ex := by
  unfold render
  have hfp : fp.isEmpty = false := by
    rcases fp with _ | ⟨x, xs⟩
    · simp at h
    · rfl
  simp only [hfp, Bool.false_eq_true, if_false, List.mem_append, List.mem_cons]
  tauto

theorem stripDF_ne {m : Nat} (h0 : m ≠ 0) (h6 : m < 1000000) :
    stripZeros (digitsFixed 6 m) ≠ [] := by
  apply stripZeros_ne_nil
  rw [digitsVal_digitsFixed]
  have : m % 10 ^ 6 = m := Nat.mod_eq_of_lt (by omega)
  omega

theorem fmtParts_chars {neg : Bool} {m : Nat} {e : Int}
    (h6 : m < 1000000) (hm0 : m ≠ 0) :
    ∀ c ∈ fmtParts neg m e,
      isDigitC c = true ∨ c = '-' ∨ c = '.' ∨ c = 'e' ∨ c = '+' := by
  by_cases hsci : e < -4 ∨ 6 ≤ e
  · rw [fmtParts_sci neg m e hsci]
    apply render_chars
    · intro c hc
      exact digitsFixed_all 6 m c (List.mem_of_mem_take hc)
    · intro c hc
      have hc2 := stripZeros_mem hc
      have hc3 : c ∈ digitsFixed 6 m := by
        rcases hE : digitsFixed 6 m with _ | ⟨x, xs⟩
        · rw [hE] at hc2
          simp at hc2
        · rw [hE] at hc2
          exact List.mem_cons_of_mem x hc2
      exact digitsFixed_all 6 m c hc3
    · intro c hc
      simp only [exDigits] at hc
      exact expDigits_all c hc
  · by_cases hnn : (0:Int) ≤ e
    · rw [fmtParts_fixed_nonneg neg m e hsci hnn]
      apply render_chars
      · intro c hc
        exact digitsFixed_all 6 m c (List.mem_of_mem_take hc)
      · intro c hc
        exact digitsFixed_all 6 m c (List.mem_of_mem_drop (stripZeros_mem hc))
      · intro c hc
        simp [exDigits] at hc
    · rw [fmtParts_fixed_neg neg m e hsci hnn (stripDF_ne hm0 h6)]
      apply render_chars
      · intro c hc
        simp only [List.mem_singleton] at hc
        subst hc
        decide
      · intro c hc
        rcases List.mem_append.mp hc with hc1 | hc1
        · have := List.eq_of_mem_replicate hc1
          subst this
          decide
        · exact digitsFixed_all 6 m c (stripZeros_mem hc1)
      · intro c hc
        simp [exDigits] at hc

theorem fmtParts_not_hex {neg : Bool} {m : Nat} {e : Int}
    (h6 : m < 1000000) (hm0 : m ≠ 0) :
    isHex (fmtParts neg m e) = false := by
  apply isHex_false_of_no_x
  intro c hc
  rcases fmtParts_chars h6 hm0 c hc with hd | h | h | h | h
  · constructor <;> (intro hx; rw [hx] at hd; exact absurd hd (by decide))
  all_goals (subst h; exact ⟨by decide, by decide⟩)

theorem fmtParts_has_digit (neg : Bool) (m : Nat) (e : Int)
    (h5 : 100000 ≤ m) (h6 : m < 1000000) :
    toDigitChar (m / 100000) ∈ fmtParts neg m e := by
  have hD := digitsFixed_head h5 h6
  by_cases hsci : e < -4 ∨ 6 ≤ e
  · rw [fmtParts_sci neg m e hsci]
    apply mem_render_ip
    rw [hD]
    simp
  · by_cases hnn : (0:Int) ≤ e
    · rw [fmtParts_fixed_nonneg neg m e hsci hnn]
      apply mem_render_ip
      rw [hD, List.take_succ_cons]
      simp
    · have hne := stripDF_ne (show m ≠ 0 by omega) h6
      rw [fmtParts_fixed_neg neg m e hsci hnn hne]
      apply mem_render_fp
      apply List.mem_append.mpr
      right
      have hd := stripZeros_decomp (digitsFixed 6 m)
      rcases hS : stripZeros (digitsFixed 6 m) with _ | ⟨s0, S2⟩
      · exact absurd hS hne
      · rw [hS, hD, List.cons_append] at hd
        have hhead : toDigitChar (m / 100000) = s0 := by
          injection hd with h1 h2
        rw [hhead]
        simp

theorem isNullValue_eq_false_of {t : List Char} {c : Char} (hc : c ∈ t)
    (h1 : '1' ≤ c) (h2 : c ≤ '9') : isNullValue t = false := by
  by_contra hb
  rw [Bool.not_eq_false] at hb
  unfold isNullValue at hb
  simp only [Bool.or_eq_true, beq_iff_eq] at hb
  have hno : ¬('1' ≤ c ∧ c ≤ '9') := by
    rcases hb with
      (((((((((((((((h | h) | h) | h) | h) | h) | h) | h) | h) | h) | h) | h)
          | h) | h) | h) | h) | h
    all_goals
      subst h
      fin_cases hc <;> decide
  exact hno ⟨h1, h2⟩

theorem fmtParts_not_null (neg : Bool) (m : Nat) (e : Int)
    (h5 : 100000 ≤ m) (h6 : m < 1000000) :
    isNullValue (fmtParts neg m e) = false := by
  have hmem := fmtParts_has_digit neg m e h5 h6
  have hd1 : 1 ≤ m / 100000 := by omega
  have hd9 : m / 100000 ≤ 9 := by omega
  obtain ⟨hb1, hb2⟩ := toDigitChar_one_nine hd1 hd9
  exact isNullValue_eq_false_of hmem hb1 hb2

theorem toDouble_fmtParts (neg : Bool) (m : Nat) (e : Int)
    (h5 : 100000 ≤ m) (h6 : m < 1000000) :
    toDoubleNumber (fmtParts neg m e) = istreamDouble (fmtParts neg m e) := by
  unfold toDoubleNumber
  rw [fmtParts_not_hex h6 (by omega), fmtParts_not_null neg m e h5 h6]
  simp

/-! Claim C9, part 7: formatting a value known to be exactly `±m·10^(e−5)`
with `10^5 ≤ m < 10^6` reproduces `fmtParts neg m e`, and the denominators
of all conversion results are nonzero. -/

theorem fmt_of_exact {a : Q} (hden : a.den ≠ 0) {neg : Bool} {m : Nat} {e : Int}
    (h5 : 100000 ≤ m) (h6 : m < 1000000)
    (hval : qVal a = (if neg then (-1:ℚ) else 1) * m * (10:ℚ) ^ (e - 5)) :
    toStringDouble a = fmtParts neg m e := by
  have hmQ : (0:ℚ) < (m:ℚ) := by exact_mod_cast (show 0 < m by omega)
  have hpow : (0:ℚ) < (10:ℚ) ^ (e - 5) := by positivity
  have hprod : (0:ℚ) < (m:ℚ) * (10:ℚ) ^ (e - 5) := mul_pos hmQ hpow
  have habs : |qVal a| = (m:ℚ) * (10:ℚ) ^ (e - 5) := by
    rw [hval]
    rcases hneg : neg with _ | _
    · simp only [Bool.false_eq_true, if_false, one_mul]
      exact abs_of_pos hprod
    · rw [if_pos rfl, neg_one_mul, neg_mul, abs_neg]
      exact abs_of_pos hprod
  have hvne : qVal a ≠ 0 := abs_pos.mp (habs ▸ hprod)
  have hnum : a.num ≠ 0 := fun h => hvne ((qVal_eq_zero_iff hden).mpr h)
  have hsgn : a.num < 0 ↔ neg = true := by
    rw [← qVal_neg_iff hden, hval]
    rcases neg with _ | _
    · simp only [Bool.false_eq_true, if_false, one_mul]
      constructor
      · intro h
        exact absurd h (not_lt.mpr (le_of_lt hprod))
      · intro h
        simp at h
    · rw [if_pos rfl]
      constructor
      · intro _
        rfl
      · intro _
        rw [neg_one_mul, neg_mul]
        exact neg_lt_zero.mpr hprod
  have hdec : decide (a.num < 0) = neg := by
    rcases hneg2 : neg with _ | _
    · rw [hneg2] at hsgn
      simp only [Bool.false_eq_true, iff_false] at hsgn
      exact decide_eq_false hsgn
    · rw [hneg2] at hsgn
      exact decide_eq_true (hsgn.mpr rfl)
  have habs' : qVal (qAbs a) = (m:ℚ) * (10:ℚ) ^ (e - 5) := by
    rw [qVal_qAbs, habs]
  have hppos : 0 < qVal (qAbs a) := by
    rw [habs']
    exact hprod
  have hspec := decExp_spec (show (qAbs a).den ≠ 0 from hden) hppos
  have hb1 : (10:ℚ) ^ e ≤ qVal (qAbs a) := by
    rw [habs']
    calc (10:ℚ) ^ e = (10:ℚ) ^ (5:Int) * (10:ℚ) ^ (e - 5) := by
          rw [← zpow_add₀ (by norm_num : (10:ℚ) ≠ 0)]
          congr 1
          ring
      _ ≤ (m:ℚ) * (10:ℚ) ^ (e - 5) := by
          apply mul_le_mul_of_nonneg_right _ (le_of_lt hpow)
          calc (10:ℚ) ^ (5:Int) = (100000:ℚ) := by norm_num
            _ ≤ (m:ℚ) := by exact_mod_cast h5
  have hb2 : qVal (qAbs a) < (10:ℚ) ^ (e + 1) := by
    rw [habs']
    calc (m:ℚ) * (10:ℚ) ^ (e - 5)
        < (10:ℚ) ^ (6:Int) * (10:ℚ) ^ (e - 5) := by
          apply mul_lt_mul_of_pos_right _ hpow
          calc (m:ℚ) < (1000000:ℚ) := by exact_mod_cast h6
            _ = (10:ℚ) ^ (6:Int) := by norm_num
      _ = (10:ℚ) ^ (e + 1) := by
          rw [← zpow_add₀ (by norm_num : (10:ℚ) ≠ 0)]
          congr 1
          ring
  have he : decExp (qAbs a) = e := decExp_unique hspec.1 hspec.2 hb1 hb2
  have hscaled : qVal (qMulPow10 (qAbs a) (5 - decExp (qAbs a))) = (m:ℚ) := by
    rw [qVal_qMulPow10 (show (qAbs a).den ≠ 0 from hden), habs', he, mul_assoc,
      ← zpow_add₀ (by norm_num : (10:ℚ) ≠ 0)]
    have h0 : e - 5 + (5 - e) = 0 := by ring
    rw [h0, zpow_zero, mul_one]
  have hrne : rne (qMulPow10 (qAbs a) (5 - decExp (qAbs a))) = (m:Int) :=
    rne_int (qMulPow10_den_ne (show (qAbs a).den ≠ 0 from hden) _)
      (by exact_mod_cast hscaled)
  have hbeq : (rne (qMulPow10 (qAbs a) (5 - decExp (qAbs a))) == 1000000) = false := by
    rw [hrne]
    exact beq_eq_false_iff_ne.mpr (by omega)
  unfold toStringDouble
  rw [beq_eq_false_iff_ne.mpr hnum]
  simp only [Bool.false_eq_true, if_false]
  rw [hbeq]
  simp only [Bool.false_eq_true, if_false]
  rw [hdec, hrne, he]
  simp

theorem istreamDouble_den_ne (s : List Char) : (istreamDouble s).den ≠ 0 := by
  unfold istreamDouble
  dsimp only
  split
  · decide
  · split
    · decide
    · split
      · exact floatScanMant_den_ne _
      · exact qMulPow10_den_ne (floatScanMant_den_ne _) _

theorem toDoubleNumber_den_ne (s : List Char) : (toDoubleNumber s).den ≠ 0 := by
  unfold toDoubleNumber
  split
  · exact one_ne_zero
  · split
    · exact one_ne_zero
    · exact istreamDouble_den_ne s

/-- C9: round-trip idempotence — for every literal string `s`, with `parse`
the float conversion `toDoubleNumber` and `format` the canonical double
formatting `toStringDouble`, `format (parse (format (parse s)))` equals
`format (parse s)`: one parse/format round-trip reaches a fixed point of
the format-after-parse composition. -/
theorem claim_C9_roundtrip (s : List Char) :
    toStringDouble (toDoubleNumber (toStringDouble (toDoubleNumber s)))
      = toStringDouble (toDoubleNumber s) := by
  have hden : (toDoubleNumber s).den ≠ 0 := toDoubleNumber_den_ne s
  by_cases hz : (toDoubleNumber s).num = 0
  · have h1 : toStringDouble (toDoubleNumber s) = ['0'] := by
      unfold toStringDouble
      rw [if_pos (beq_iff_eq.mpr hz)]
    rw [h1]
    rfl
  · obtain ⟨m, e2, hfmt, h5, h6⟩ := toStringDouble_shape hden hz
    rw [hfmt, toDouble_fmtParts _ _ _ h5 h6]
    have hp := parse_fmtParts (decide ((toDoubleNumber s).num < 0)) m e2 h5 h6
    exact fmt_of_exact hp.1 h5 h6 hp.2

end MathLib
